import Mathlib

/-!
The workload-replay request source of httperf, `uri_wrichlog.c`.

A shallow embedding of `src/gen/uri_wrichlog.c`.

Conventions of the embedding:

* A C string is the `List Char` of its characters before the terminating NUL, so a list
  holds no NUL character; reading the terminator is reaching the end of the list.
* The request list lives in a heap `List REQ`; a `REQ *` is an `Option Nat`
  (`none` is `NULL`, `some a` the node at index `a`, nodes being numbered in
  allocation order).
* `panic` terminates the process: it is an `Except.error`.
* The fixed-capacity buffers of the C code (`line`, `uri`, `cookie`, `extra_hdrs`, ...)
  are taken large enough for their contents, and allocation succeeds.
-/

namespace Wrichlog

/-! ## Data model -/

/-- Methods allowed for a request: the enum `HM_DELETE .. HM_TRACE`, in its order. -/
inductive Method where
  | HM_DELETE | HM_GET | HM_HEAD | HM_OPTIONS | HM_POST | HM_PUT | HM_TRACE
  deriving DecidableEq, Repr

/-- The enum values in increasing order `0 .. HM_LEN - 1`, as the loop
`for (i = 0; i < HM_LEN; i++)` enumerates them. -/
def hm_values : List Method :=
  [.HM_DELETE, .HM_GET, .HM_HEAD, .HM_OPTIONS, .HM_POST, .HM_PUT, .HM_TRACE]

/-- The table `call_method_name[]`. -/
def call_method_name : Method → List Char
  | .HM_DELETE => "DELETE".toList
  | .HM_GET => "GET".toList
  | .HM_HEAD => "HEAD".toList
  | .HM_OPTIONS => "OPTIONS".toList
  | .HM_POST => "POST".toList
  | .HM_PUT => "PUT".toList
  | .HM_TRACE => "TRACE".toList

/-- The request object `struct req`. `uri` and `contents` are `char *` (`none` is `NULL`),
`extra_hdrs` is the inline character array read as a C string. -/
structure REQ where
  next : Option Nat
  method : Method
  uri : Option (List Char)
  uri_len : Nat
  contents : Option (List Char)
  contents_len : Int
  extra_hdrs : List Char
  extra_hdrs_len : Nat
  deriving DecidableEq, Repr

/-- Modelled from the spec: the call object of the harness (`call.h` is not part of the
sources). Its capability surface is `setMethod`, `setURI`, `appendRequestHeaders`, `setBody`;
each slot records the buffer and the length it was given. -/
structure Call where
  method : Option (List Char) × Nat
  uri : Option (List Char) × Nat
  extra_hdrs : List (List Char × Nat)
  contents : Option (List Char) × Nat
  deriving DecidableEq, Repr

/-- Modelled from the spec: `setMethod(name)` of the call capability surface. -/
def call_set_method (c : Call) (s : Option (List Char)) (len : Nat) : Call :=
  { c with method := (s, len) }

/-- Modelled from the spec: `setURI(bytes)` of the call capability surface. -/
def call_set_uri (c : Call) (s : Option (List Char)) (len : Nat) : Call :=
  { c with uri := (s, len) }

/-- Modelled from the spec: `appendRequestHeaders(bytes)` of the call capability surface. -/
def call_append_request_header (c : Call) (s : List Char) (len : Nat) : Call :=
  { c with extra_hdrs := c.extra_hdrs ++ [(s, len)] }

/-- Modelled from the spec: `setBody(bytes)` of the call capability surface. -/
def call_set_contents (c : Call) (s : Option (List Char)) (len : Nat) : Call :=
  { c with contents := (s, len) }

/-- The module state at dispatch time: the request heap, the global `cur_req_ptr`, and the
number of `core_exit()` stop signals sent to the harness so far. -/
structure State where
  heap : List REQ
  cur_req_ptr : Option Nat
  core_exit_calls : Nat
  deriving DecidableEq, Repr

/-! ## Dispatcher -/

/-- The handler `set_request` for one "new call" event (the `assert` is a precondition and the
`verbose` trace is not modelled). The result is `none` only when `cur_req_ptr` points outside
the heap. -/
def set_request (st : State) (c : Call) : Option (State × Call) :=
  match st.cur_req_ptr with
  | none =>
    some ({ st with core_exit_calls := st.core_exit_calls + 1 }, call_set_uri c (some []) 0)
  | some a =>
    match st.heap[a]? with
    | none => none
    | some r =>
      let c1 :=
        if r.method ≠ Method.HM_GET then
          let method_str := call_method_name r.method
          call_set_method c (some method_str) method_str.length
        else c
      let c2 := call_set_uri c1 r.uri r.uri_len
      let c3 :=
        if r.extra_hdrs_len > 0 then call_append_request_header c2 r.extra_hdrs r.extra_hdrs_len
        else c2
      let c4 :=
        if r.contents_len > 0 then call_set_contents c3 r.contents r.contents_len.toNat
        else c3
      some ({ st with cur_req_ptr := r.next }, c4)

/-- The state after the handler has served, in order, one event for each call object of `cs`. -/
def dispatch (st : State) : List Call → Option State
  | [] => some st
  | c :: cs =>
    match set_request st c with
    | none => none
    | some (st1, _) => dispatch st1 cs

/-! ## Argument tokenizer and configuration parser -/

deriving instance DecidableEq for Except

/-- The fatal conditions of the parser, by the class of the `panic` site: the unrecognised
method and the unrecognised argument are `MalformedLine`, the content file that cannot be
opened is `ContentFileNotFound`, the escape before a newline is `PrematureEscapeEOF`. -/
inductive Failure where
  | ConfigNotFound | OutOfMemory | MalformedLine | ContentFileNotFound | PrematureEscapeEOF
  deriving DecidableEq, Repr

/-- The single quote character. -/
def squote : Char := Char.ofNat 39

/-- The double quote character. -/
def dquote : Char := Char.ofNat 34

/-- The backslash character. -/
def backslash : Char := Char.ofNat 92

/-- The white-space characters of the C locale, which `%s` and a blank in a `sscanf` format
skip and at which `%s` stops. -/
def isspace (c : Char) : Bool :=
  c == ' ' || c == '\t' || c == '\n' || c == Char.ofNat 11 || c == Char.ofNat 12 || c == '\r'

/-- Both `sscanf(s, "%s%n", word, &bytes_read)` and `sscanf(s, " %s%n", word, &bytes_read)`:
leading white space is skipped and the following run of non-white-space characters is stored;
the result is `none` when the call does not return 1 (no such run before the end of `s`),
otherwise the word and the number of characters consumed. -/
def sscanf_s (s : List Char) : Option (List Char × Nat) :=
  let rest := s.dropWhile isspace
  let word := rest.takeWhile (fun c => !isspace c)
  if word = [] then none else some (word, (s.length - rest.length) + word.length)

/-- The call `sscanf(s, "<lit>%s", out) == 1` for a format whose literal part `lit` has no
white space and no conversion: the characters of `lit` are matched one by one, then `%s`
stores a word; `none` when the call does not return 1. -/
def sscanf_lit_s : List Char → List Char → Option (List Char)
  | [], s => (sscanf_s s).map Prod.fst
  | _ :: _, [] => none
  | l :: ls, c :: cs => if l = c then sscanf_lit_s ls cs else none

/-- The test `strncmp(a, b, n) == 0`. -/
def strncmp_eq : List Char → List Char → Nat → Bool
  | _, _, 0 => true
  | [], [], _ + 1 => true
  | x :: xs, y :: ys, n + 1 => x == y && strncmp_eq xs ys n
  | [], _ :: _, _ + 1 => false
  | _ :: _, [], _ + 1 => false

/-- The loop `for (i = 0; i < HM_LEN; i++) if (!strncmp(method_str, call_method_name[i],
strlen(call_method_name[i]))) { ...->method = i; break; }` over the remaining enum values:
the value at which it breaks, or `none` when it runs to `i == HM_LEN`. -/
def find_method (method_str : List Char) : List Method → Option Method
  | [] => none
  | i :: rest =>
    if strncmp_eq method_str (call_method_name i) (call_method_name i).length then some i
    else find_method method_str rest

/-- The `while ((ch = *from++) != 0 && !done)` loop of `parse_arg`. The arguments are the text
at `from`, the characters written through `to` so far, the flags `single_quoted`,
`double_quoted`, `escaped` and `done`, and the number `n` of loop bodies executed so far. The
result is the final `arg_contents` and the final `n`. -/
def parse_arg_loop :
    List Char → List Char → Bool → Bool → Bool → Bool → Nat → Except Failure (List Char × Nat)
  | [], out, _, _, _, _, n => .ok (out, n)
  | ch :: rest, out, single_quoted, double_quoted, escaped, done, n =>
    if done then .ok (out, n)
    else if escaped then
      if ch = 'n' then
        parse_arg_loop rest (out ++ ['\n']) single_quoted double_quoted false done (n + 1)
      else if ch = 'r' then
        parse_arg_loop rest (out ++ ['\r']) single_quoted double_quoted false done (n + 1)
      else if ch = 't' then
        parse_arg_loop rest (out ++ ['\t']) single_quoted double_quoted false done (n + 1)
      else if ch = '\n' then .error Failure.PrematureEscapeEOF
      else parse_arg_loop rest (out ++ [ch]) single_quoted double_quoted false done (n + 1)
    else if ch = dquote && double_quoted then
      parse_arg_loop rest out single_quoted false escaped done (n + 1)
    else if ch = squote && single_quoted then
      parse_arg_loop rest out false double_quoted escaped done (n + 1)
    else if ch = '\t' || ch = '\n' || ch = ' ' then
      if single_quoted = false && double_quoted = false then
        parse_arg_loop rest out single_quoted double_quoted escaped true (n + 1)
      else
        parse_arg_loop rest (out ++ [ch]) single_quoted double_quoted escaped done (n + 1)
    else if ch = backslash then
      parse_arg_loop rest out single_quoted double_quoted true done (n + 1)
    else if ch = dquote then
      if single_quoted then
        parse_arg_loop rest (out ++ [ch]) single_quoted double_quoted escaped done (n + 1)
      else
        parse_arg_loop rest out single_quoted true escaped done (n + 1)
    else if ch = squote then
      if double_quoted then
        parse_arg_loop rest (out ++ [ch]) single_quoted double_quoted escaped done (n + 1)
      else
        parse_arg_loop rest out true double_quoted escaped done (n + 1)
    else
      parse_arg_loop rest (out ++ [ch]) single_quoted double_quoted escaped done (n + 1)

/-- The tokenizer `parse_arg(input, arg_contents, &bytes_read)`: the decoded `arg_contents`
and `bytes_read`. `from` starts one past the first `=` of `input` (every caller passes an
input that has one); each evaluation of the loop condition advances `from` by one and the
final `from--` takes one back, so `bytes_read` is the start offset plus the number of loop
bodies executed. -/
def parse_arg (input : List Char) : Except Failure (List Char × Nat) :=
  let start := (input.takeWhile (fun c => c != '=')).length + 1
  match parse_arg_loop (input.drop start) [] false false false false 0 with
  | .error e => .error e
  | .ok (arg_contents, n) => .ok (arg_contents, start + n)

/-- The conversion `%d` of `sprintf` applied to an `int`. -/
def fmt_d (i : Int) : List Char :=
  if i < 0 then '-' :: Nat.toDigits 10 i.natAbs else Nat.toDigits 10 i.toNat

/-- The conversion of a file size `st_size` to the `int` field `contents_len`. -/
def int_of_size (n : Nat) : Int :=
  ((n + 2 ^ 31) % 2 ^ 32 : Nat) - (2 ^ 31 : Int)

/-- The recurring pattern `if (strlen(extra_hdrs) > 0) strcat(extra_hdrs, text) else
sprintf(extra_hdrs, text)` followed by `extra_hdrs_len = strlen(extra_hdrs)`. -/
def hdrs_add (r : REQ) (text : List Char) : REQ :=
  let hdrs := if r.extra_hdrs.length > 0 then r.extra_hdrs ++ text else text
  { r with extra_hdrs := hdrs, extra_hdrs_len := hdrs.length }

/-- The end-of-line sequence of a header line. -/
def crlf : List Char := ['\r', '\n']

/-- The chain of `if (sscanf(this_arg, "key=%s", ...) == 1)` tests in the body of the argument
loop, for the request `r` under construction; `fs` gives the content of a file that can be
opened and read, `none` for one that cannot. The result is the updated request and
`bytes_read`. -/
def arg_dispatch (fs : List Char → Option (List Char)) (r : REQ) (parsed_so_far this_arg : List Char)
    (bytes_read : Nat) : Except Failure (REQ × Nat) :=
  match sscanf_lit_s "method=".toList this_arg with
  | some method_str =>
    match find_method method_str hm_values with
    | some i => .ok ({ r with method := i }, bytes_read)
    | none => .error Failure.MalformedLine
  | none =>
  match sscanf_lit_s "content-type=".toList this_arg with
  | some cont_type =>
    .ok (hdrs_add r ("Content-Type: ".toList ++ cont_type ++ crlf), bytes_read)
  | none =>
  match sscanf_lit_s "cookie=".toList this_arg with
  | some _ =>
    match parse_arg parsed_so_far with
    | .error e => .error e
    | .ok (cookie, bytes_read1) =>
      .ok (hdrs_add r ("Cookie: ".toList ++ cookie ++ crlf), bytes_read1)
  | none =>
  match sscanf_lit_s "header=".toList this_arg with
  | some _ =>
    match parse_arg parsed_so_far with
    | .error e => .error e
    | .ok (header, bytes_read1) => .ok (hdrs_add r (header ++ crlf), bytes_read1)
  | none =>
  match sscanf_lit_s "file=".toList this_arg with
  | some file_path =>
    match fs file_path with
    | none => .error Failure.ContentFileNotFound
    | some contents =>
      .ok ({ r with contents := some contents, contents_len := int_of_size contents.length },
        bytes_read)
  | none =>
  match sscanf_lit_s "contents=".toList this_arg with
  | some _ =>
    match parse_arg parsed_so_far with
    | .error e => .error e
    | .ok (tmp_contents, bytes_read1) =>
      .ok ({ r with contents := some tmp_contents, contents_len := tmp_contents.length },
        bytes_read1)
  | none => .error Failure.MalformedLine

/-- One body of the argument loop of `parse_config`, entered with the word `this_arg` that
`sscanf(parsed_so_far, " %s%n", ...)` stored: the key dispatch, then the block that generates
`Content-Length`. The result is the updated request and the final `bytes_read`. -/
def arg_body (fs : List Char → Option (List Char)) (r : REQ) (parsed_so_far this_arg : List Char)
    (bytes_read : Nat) : Except Failure (REQ × Nat) :=
  match arg_dispatch fs r parsed_so_far this_arg bytes_read with
  | .error e => .error e
  | .ok (r1, bytes_read1) =>
    if r1.contents_len > 0 then
      .ok (hdrs_add r1 ("Content-Length: ".toList ++ fmt_d r1.contents_len ++ crlf), bytes_read1)
    else .ok (r1, bytes_read1)

/-- The argument loop `while (sscanf(parsed_so_far, " %s%n", this_arg, &bytes_read) == 1)` of
`parse_config`, ending with `parsed_so_far += bytes_read`. At most `fuel` bodies are run;
`none` means that the fuel ran out. -/
def args_loop (fs : List Char → Option (List Char)) :
    Nat → REQ → List Char → Option (Except Failure REQ)
  | 0, _, _ => none
  | fuel + 1, r, parsed_so_far =>
    match sscanf_s parsed_so_far with
    | none => some (.ok r)
    | some (this_arg, bytes_read) =>
      match arg_body fs r parsed_so_far this_arg bytes_read with
      | .error e => some (.error e)
      | .ok (r1, bytes_read1) => args_loop fs fuel r1 (parsed_so_far.drop bytes_read1)

/-- The function `new_request(uristr)`: a zeroed node with the given URI and method `HM_GET`. -/
def new_request (uristr : List Char) : REQ :=
  { next := none, method := Method.HM_GET, uri := some uristr, uri_len := uristr.length,
    contents := none, contents_len := 0, extra_hdrs := [], extra_hdrs_len := 0 }

/-- The assignment `heap[a].next = q`. -/
def set_next : List REQ → Nat → Option Nat → List REQ
  | [], _, _ => []
  | r :: rs, 0, q => { r with next := q } :: rs
  | r :: rs, a + 1, q => r :: set_next rs a q

/-- The local variables of `parse_config` that survive a line: the heap of requests built so
far, `head_reqptr`, `pre_reqptr` and `reqnum`. -/
structure ParseState where
  heap : List REQ
  head_reqptr : Option Nat
  pre_reqptr : Option Nat
  reqnum : Nat
  deriving DecidableEq, Repr

/-- One iteration of the line loop of `parse_config` on the string `line` that `fgets`
returned. The new node is allocated at the next free heap index, linked behind `pre_reqptr`,
given its `next` (the head when looping), and then filled by the argument loop. -/
def parse_line (fs : List Char → Option (List Char)) (do_loop : Bool) (ps : ParseState)
    (line : List Char) : Option (Except Failure ParseState) :=
  if line.head? = some '#' then some (.ok ps)
  else
    match sscanf_s line with
    | none => some (.ok ps)
    | some (uri, bytes_read) =>
      let reqptr := ps.heap.length
      let r0 := new_request uri
      let head_reqptr :=
        match ps.head_reqptr with
        | none => some reqptr
        | some h => some h
      let heap1 :=
        match ps.head_reqptr, ps.pre_reqptr with
        | some _, some pre => set_next ps.heap pre (some reqptr)
        | _, _ => ps.heap
      let r1 := { r0 with next := if do_loop then head_reqptr else none }
      match args_loop fs (line.length + 1) r1 (line.drop bytes_read) with
      | none => none
      | some (.error e) => some (.error e)
      | some (.ok r) =>
        some (.ok { heap := heap1 ++ [r], head_reqptr := head_reqptr,
                    pre_reqptr := some reqptr, reqnum := ps.reqnum + 1 })

/-- The line loop `for (lineno = 1; fgets(line, sizeof(line), fp); lineno++)` over the
strings that `fgets` returns. -/
def parse_lines (fs : List Char → Option (List Char)) (do_loop : Bool) :
    ParseState → List (List Char) → Option (Except Failure ParseState)
  | ps, [] => some (.ok ps)
  | ps, line :: rest =>
    match parse_line fs do_loop ps line with
    | none => none
    | some (.error e) => some (.error e)
    | some (.ok ps1) => parse_lines fs do_loop ps1 rest

/-- The function `parse_config` on an opened workload file, given as the list of strings
that `fgets` returns for it; `do_loop` is `param.wrichlog.do_loop`. On success the module
state has `cur_req_ptr = head_reqptr` (the diagnostic listing printed under `verbose` is not
modelled). `none` means that the fuel of an argument loop ran out. -/
def parse_config (fs : List Char → Option (List Char)) (do_loop : Bool)
    (lines : List (List Char)) : Option (Except Failure State) :=
  match parse_lines fs do_loop { heap := [], head_reqptr := none, pre_reqptr := none, reqnum := 0 }
      lines with
  | none => none
  | some (.error e) => some (.error e)
  | some (.ok ps) =>
    some (.ok { heap := ps.heap, cur_req_ptr := ps.head_reqptr, core_exit_calls := 0 })

/-- Following `next` from pointer `p` visits exactly the requests `rs`, in order, and arrives
at pointer `q`. -/
def follows (heap : List REQ) : Option Nat → List REQ → Option Nat → Bool
  | p, [], q => decide (p = q)
  | none, _ :: _, _ => false
  | some a, r :: rs, q => decide (heap[a]? = some r) && follows heap r.next rs q

/-- Spec-side cursor of the design notes: an integer index into an indexed collection of
`n` requests, updated by `index = (index + 1) mod n`; the value after `k` updates from `0`. -/
def arena_index (n : Nat) : Nat → Nat
  | 0 => 0
  | k + 1 => (arena_index n k + 1) % n


/-! ## Specification-side notions -/

/-- The white-space-delimited tokens of a string, in order; `cur` is the token being read. -/
def tokens_from : List Char → List Char → List (List Char)
  | [], cur => if cur = [] then [] else [cur]
  | c :: cs, cur =>
    if isspace c then
      if cur = [] then tokens_from cs [] else cur :: tokens_from cs []
    else tokens_from cs (cur ++ [c])

/-- The white-space-delimited tokens of a line, in order. -/
def tokens (line : List Char) : List (List Char) := tokens_from line []

/-- A request line of the workload file: it does not start with `#` and it has at least one
token. -/
def is_request_line (line : List Char) : Bool :=
  line.head? != some '#' && !(tokens line).isEmpty

/-- The lines of a header block: the texts before each CRLF, and the unterminated remainder
`cur` if there is one. -/
def hdr_lines_from : List Char → List Char → List (List Char)
  | [], cur => if cur = [] then [] else [cur]
  | [c], cur => [cur ++ [c]]
  | c :: d :: cs, cur =>
    if c = '\r' ∧ d = '\n' then cur :: hdr_lines_from cs [] else hdr_lines_from (d :: cs) (cur ++ [c])

/-- The number of `Content-Length` lines of a header block. -/
def content_length_lines (hdrs : List Char) : Nat :=
  ((hdr_lines_from hdrs []).filter (fun l => "Content-Length:".toList.isPrefixOf l)).length

/-- The links of a heap built by `parse_config`: each node points to the node allocated after
it, and the last one to the first node when looping and nowhere otherwise. -/
def chained (do_loop : Bool) (heap : List REQ) : Prop :=
  ∀ i r, heap[i]? = some r →
    r.next = if i + 1 < heap.length then some (i + 1) else if do_loop then some 0 else none

/-- The invariant of the line loop of `parse_config`: `head_reqptr` is the first node and
`pre_reqptr` the last one (both `NULL` on an empty heap), and the heap is chained. -/
def line_loop_inv (do_loop : Bool) (ps : ParseState) : Prop :=
  ps.head_reqptr = (if ps.heap = [] then none else some 0) ∧
  ps.pre_reqptr = (if ps.heap = [] then none else some (ps.heap.length - 1)) ∧
  chained do_loop ps.heap

/-- The keys of the arguments that the argument loop of `parse_config` recognises. -/
def arg_keys : List (List Char) :=
  ["method=".toList, "content-type=".toList, "cookie=".toList, "header=".toList,
   "file=".toList, "contents=".toList]

/-- The argument loop, started on the request `r` and the text `s`, arrives at the request
`r2` and the text `s2` after zero or more arguments, each processed without failure. -/
inductive ArgsReach (fs : List Char → Option (List Char)) :
    REQ → List Char → REQ → List Char → Prop where
  | here (r : REQ) (s : List Char) : ArgsReach fs r s r s
  | next {r r1 r2 : REQ} {s s2 this_arg : List Char} {n n1 : Nat} :
      sscanf_s s = some (this_arg, n) → arg_body fs r s this_arg n = .ok (r1, n1) →
      ArgsReach fs r1 (s.drop n1) r2 s2 → ArgsReach fs r s r2 s2

/-- An open list of three requests `/a`, `/b`, `/c`. -/
def open3 : List REQ :=
  [{ new_request "/a".toList with next := some 1 }, { new_request "/b".toList with next := some 2 },
   new_request "/c".toList]

/-- A ring of three requests `/a`, `/b`, `/c`. -/
def ring3 : List REQ :=
  [{ new_request "/a".toList with next := some 1 }, { new_request "/b".toList with next := some 2 },
   { new_request "/c".toList with next := some 0 }]

/-- A call object on which nothing has been set. -/
def call0 : Call := ⟨(none, 0), (none, 0), [], (none, 0)⟩

/-- A file system without any content file. -/
def no_files : List Char → Option (List Char) := fun _ => none

/-! ## Shutdown -/

/-- A call of `free`: on the `uri` of node `a`, on the `contents` of node `a`, or on node `a`
itself. -/
inductive Freed where
  | uri (a : Nat)
  | contents (a : Nat)
  | node (a : Nat)
  deriving DecidableEq, Repr

/-- The memory during shutdown: the request heap, and two records kept for the proofs: the
calls of `free` made so far, in order, and the nodes on which `free_request_concat` was
entered with a non-NULL pointer so far, in order. A node that was freed keeps its place in
the heap list; that it was freed is in the record. -/
structure Shutdown where
  heap : List REQ
  freed : List Freed
  visited : List Nat
  deriving DecidableEq, Repr

/-- The recursive function `free_request_concat(reqptr)`. At most `fuel` nested calls are
made; the result is `none` when the fuel runs out or `reqptr` points outside the heap. -/
def free_request_concat : Nat → Shutdown → Option Nat → Option Shutdown
  | 0, _, _ => none
  | _ + 1, sd, none => some sd
  | fuel + 1, sd, some reqptr =>
    match sd.heap[reqptr]? with
    | none => none
    | some r =>
      let nextptr := r.next
      let freed1 := if r.uri ≠ none then sd.freed ++ [Freed.uri reqptr] else sd.freed
      let freed2 := if r.contents ≠ none then freed1 ++ [Freed.contents reqptr] else freed1
      match nextptr with
      | some _ =>
        free_request_concat fuel
          { heap := sd.heap.set reqptr { r with uri := none, contents := none, next := none },
            freed := freed2, visited := sd.visited ++ [reqptr] }
          nextptr
      | none =>
        some { heap := sd.heap.set reqptr { r with uri := none, contents := none },
               freed := freed2 ++ [Freed.node reqptr], visited := sd.visited ++ [reqptr] }

/-- The shutdown hook `stop_wrichlog`: `free_request_concat(cur_req_ptr)`. -/
def stop_wrichlog (fuel : Nat) (st : State) : Option Shutdown :=
  free_request_concat fuel { heap := st.heap, freed := [], visited := [] } st.cur_req_ptr

/-- The calls of `free` that release the `uri` and the `contents` of node `a` of a heap. -/
def released (heap : List REQ) (a : Nat) : List Freed :=
  match heap[a]? with
  | none => []
  | some r =>
    (if r.uri ≠ none then [Freed.uri a] else []) ++
      (if r.contents ≠ none then [Freed.contents a] else [])

/-- Following `next` from pointer `p` visits exactly the nodes at the addresses `addrs`, in
order, and arrives at pointer `q`. -/
def path (heap : List REQ) : Option Nat → List Nat → Option Nat → Bool
  | p, [], q => decide (p = q)
  | none, _ :: _, _ => false
  | some a, b :: addrs, q =>
    decide (a = b) &&
      (match heap[a]? with
       | none => false
       | some r => path heap r.next addrs q)

/-- A ring of one request that points to itself. -/
def ring1 : List REQ := [{ new_request "/a".toList with next := some 0 }]

theorem follows_cons_inv {heap : List REQ} {p q : Option Nat} {r : REQ} {rs : List REQ}
    (h : follows heap p (r :: rs) q = true) :
    ∃ a, p = some a ∧ heap[a]? = some r ∧ follows heap r.next rs q = true := by
  cases p with
  | none => simp [follows] at h
  | some a =>
    simp only [follows, Bool.and_eq_true, decide_eq_true_eq] at h
    exact ⟨a, rfl, h.1, h.2⟩

theorem follows_nil_inv {heap : List REQ} {p q : Option Nat}
    (h : follows heap p [] q = true) : p = q := by
  cases p <;> simpa [follows] using h

theorem set_request_at {heap : List REQ} {a : Nat} {r : REQ} (e : Nat) (c : Call)
    (h : heap[a]? = some r) :
    ∃ c1, set_request ⟨heap, some a, e⟩ c = some (⟨heap, r.next, e⟩, c1) ∧
      c1.uri = (r.uri, r.uri_len) := by
  simp only [set_request, h]
  refine ⟨_, rfl, ?_⟩
  simp only [call_set_uri, call_set_contents, call_append_request_header, call_set_method]
  split_ifs <;> rfl

theorem set_request_null (heap : List REQ) (e : Nat) (c : Call) :
    set_request ⟨heap, none, e⟩ c = some (⟨heap, none, e + 1⟩, call_set_uri c (some []) 0) := rfl

theorem dispatch_append (cs1 cs2 : List Call) :
    ∀ st : State, dispatch st (cs1 ++ cs2) = (dispatch st cs1).bind (fun s => dispatch s cs2) := by
  induction cs1 with
  | nil => intro st; rfl
  | cons c cs ih =>
    intro st
    simp only [List.cons_append, dispatch]
    cases hs : set_request st c with
    | none => rfl
    | some sc => simpa using ih sc.1

theorem dispatch_null (heap : List REQ) :
    ∀ (cs : List Call) (e : Nat),
      dispatch ⟨heap, none, e⟩ cs = some ⟨heap, none, e + cs.length⟩ := by
  intro cs
  induction cs with
  | nil => intro e; rfl
  | cons c cs ih =>
    intro e
    simp only [dispatch, set_request_null, ih, List.length_cons]
    congr 2
    omega

theorem dispatch_follows (heap : List REQ) (q : Option Nat) (e : Nat) :
    ∀ (cs : List Call) (rs : List REQ) (p : Option Nat),
      follows heap p rs q = true → cs.length ≤ rs.length →
      ∃ p1, dispatch ⟨heap, p, e⟩ cs = some ⟨heap, p1, e⟩ ∧
        follows heap p1 (rs.drop cs.length) q = true := by
  intro cs
  induction cs with
  | nil => intro rs p h _; exact ⟨p, rfl, by simpa using h⟩
  | cons c cs ih =>
    intro rs p h hlen
    cases rs with
    | nil => simp at hlen
    | cons r rs =>
      obtain ⟨a, rfl, ha, hnext⟩ := follows_cons_inv h
      obtain ⟨c1, hc1, _⟩ := set_request_at e c ha
      obtain ⟨p1, hp1, hf⟩ := ih rs r.next hnext (by simpa using hlen)
      exact ⟨p1, by simp only [dispatch, hc1, hp1], by simpa using hf⟩

theorem dispatch_ring (heap : List REQ) (h0 : Nat) (e : Nat) (rs : List REQ)
    (hring : follows heap (some h0) rs (some h0) = true) :
    ∀ (cs : List Call) (j : Nat) (p : Option Nat), j < rs.length →
      follows heap p (rs.drop j) (some h0) = true →
      ∃ p1, dispatch ⟨heap, p, e⟩ cs = some ⟨heap, p1, e⟩ ∧
        follows heap p1 (rs.drop ((j + cs.length) % rs.length)) (some h0) = true := by
  intro cs
  induction cs with
  | nil =>
    intro j p hj h
    exact ⟨p, rfl, by simpa [Nat.mod_eq_of_lt hj] using h⟩
  | cons c cs ih =>
    intro j p hj h
    rw [List.drop_eq_getElem_cons hj] at h
    obtain ⟨a, rfl, ha, hnext⟩ := follows_cons_inv h
    obtain ⟨c1, hc1, _⟩ := set_request_at e c ha
    by_cases hj1 : j + 1 < rs.length
    · obtain ⟨p1, hp1, hf⟩ := ih (j + 1) _ hj1 hnext
      refine ⟨p1, by simp only [dispatch, hc1, hp1], ?_⟩
      have : j + (c :: cs).length = j + 1 + cs.length := by simp; omega
      rw [this]; exact hf
    · have hN : j + 1 = rs.length := by omega
      have hnil : rs.drop (j + 1) = [] := by simp [hN]
      rw [hnil] at hnext
      have hp := follows_nil_inv hnext
      have hpos : 0 < rs.length := by omega
      obtain ⟨p1, hp1, hf⟩ := ih 0 (some h0) hpos (by simpa using hring)
      refine ⟨p1, by simp only [dispatch, hc1, hp, hp1], ?_⟩
      have : (j + (c :: cs).length) % rs.length = (0 + cs.length) % rs.length := by
        have : j + (c :: cs).length = rs.length + cs.length := by simp; omega
        rw [this]; simp
      rw [this]; exact hf

theorem arena_index_eq (n : Nat) : ∀ k, 0 < n → arena_index n k = k % n := by
  intro k hn
  induction k with
  | zero => simp [arena_index]
  | succ k ih => simp [arena_index, ih]

/-! ## Dispatcher: claims C1 and C2 -/

/-- C1: on an open (non-looping) list of requests `rs` with the cursor at its head, after the
handler has served the calls `cs`, the next call gets the URI of the request at index
`cs.length` without a stop signal when there is such a request; when all requests have been
served it raises one stop signal (`core_exit`), gets the empty URI and leaves the cursor
exhausted. -/
theorem set_request_open_list (heap : List REQ) (rs : List REQ) (cur : Option Nat) (e : Nat)
    (hlist : follows heap cur rs none = true) (cs : List Call) (c : Call) :
    ∃ st st1 c1, dispatch ⟨heap, cur, e⟩ cs = some st ∧ set_request st c = some (st1, c1) ∧
      (∀ r, rs[cs.length]? = some r →
        c1.uri = (r.uri, r.uri_len) ∧ st1.core_exit_calls = st.core_exit_calls) ∧
      (rs.length ≤ cs.length →
        st1.core_exit_calls = st.core_exit_calls + 1 ∧ c1.uri = (some [], 0) ∧
          st1.cur_req_ptr = none) := by
  by_cases hk : cs.length < rs.length
  · obtain ⟨p1, hp1, hf⟩ := dispatch_follows heap none e cs rs cur hlist (le_of_lt hk)
    rw [List.drop_eq_getElem_cons hk] at hf
    obtain ⟨a, rfl, ha, _⟩ := follows_cons_inv hf
    obtain ⟨c1, hc1, huri⟩ := set_request_at e c ha
    refine ⟨_, _, c1, hp1, hc1, ?_, ?_⟩
    · intro r hr
      rw [List.getElem?_eq_getElem hk] at hr
      cases hr
      exact ⟨huri, rfl⟩
    · intro hle; omega
  · have hle : rs.length ≤ cs.length := by omega
    have hsplit : cs = cs.take rs.length ++ cs.drop rs.length := (List.take_append_drop _ _).symm
    obtain ⟨p1, hp1, hf⟩ := dispatch_follows heap none e (cs.take rs.length) rs cur hlist
      (by simp)
    have hlen : (cs.take rs.length).length = rs.length := by simp [hle]
    rw [hlen, List.drop_length] at hf
    have hp := follows_nil_inv hf
    subst hp
    have hd : dispatch ⟨heap, cur, e⟩ cs
        = some ⟨heap, none, e + (cs.drop rs.length).length⟩ := by
      rw [hsplit, dispatch_append, hp1]
      simp only [Option.some_bind]
      rw [dispatch_null]
      simp
    refine ⟨_, _, _, hd, set_request_null _ _ c, ?_, ?_⟩
    · intro r hr
      have := List.getElem?_eq_none hle
      rw [this] at hr
      cases hr
    · intro _
      exact ⟨rfl, rfl, rfl⟩

theorem set_request_open_list_witness :
    follows open3 (some 0) open3 none = true ∧
    ∃ st st1 c1, dispatch ⟨open3, some 0, 0⟩ [call0, call0] = some st ∧
      set_request st call0 = some (st1, c1) ∧
      (∀ r, open3[[call0, call0].length]? = some r →
        c1.uri = (r.uri, r.uri_len) ∧ st1.core_exit_calls = st.core_exit_calls) ∧
      (open3.length ≤ [call0, call0].length →
        st1.core_exit_calls = st.core_exit_calls + 1 ∧ c1.uri = (some [], 0) ∧
          st1.cur_req_ptr = none) :=
  ⟨by decide, set_request_open_list open3 open3 (some 0) 0 (by decide) [call0, call0] call0⟩

/-- C2: on a ring of `N >= 1` requests `rs` with the cursor at its head, after the handler
has served `k` calls the next call gets the URI of the request at index `k mod N`, which is
the index of the integer cursor updated `k` times by `index = (index + 1) mod N`, and no stop
signal has been raised. -/
theorem set_request_ring (heap : List REQ) (rs : List REQ) (h0 : Nat) (e : Nat)
    (hring : follows heap (some h0) rs (some h0) = true) (hne : rs ≠ [])
    (cs : List Call) (c : Call) :
    ∃ st st1 c1 r, dispatch ⟨heap, some h0, e⟩ cs = some st ∧
      set_request st c = some (st1, c1) ∧
      rs[cs.length % rs.length]? = some r ∧
      rs[arena_index rs.length cs.length]? = some r ∧
      c1.uri = (r.uri, r.uri_len) ∧
      st.core_exit_calls = e ∧ st1.core_exit_calls = e := by
  have hpos : 0 < rs.length := List.length_pos.mpr hne
  obtain ⟨p1, hp1, hf⟩ := dispatch_ring heap h0 e rs hring cs 0 (some h0) hpos
    (by simpa using hring)
  have hlt : cs.length % rs.length < rs.length := Nat.mod_lt _ hpos
  rw [Nat.zero_add, List.drop_eq_getElem_cons hlt] at hf
  obtain ⟨a, rfl, ha, _⟩ := follows_cons_inv hf
  obtain ⟨c1, hc1, huri⟩ := set_request_at e c ha
  refine ⟨_, _, c1, rs[cs.length % rs.length], hp1, hc1, ?_, ?_, huri, rfl, rfl⟩
  · exact List.getElem?_eq_getElem hlt
  · rw [arena_index_eq _ _ hpos]
    exact List.getElem?_eq_getElem hlt

theorem set_request_ring_witness :
    follows ring3 (some 0) ring3 (some 0) = true ∧ ring3 ≠ [] ∧
    ∃ st st1 c1 r, dispatch ⟨ring3, some 0, 0⟩ [call0, call0, call0, call0] = some st ∧
      set_request st call0 = some (st1, c1) ∧
      ring3[[call0, call0, call0, call0].length % ring3.length]? = some r ∧
      ring3[arena_index ring3.length [call0, call0, call0, call0].length]? = some r ∧
      c1.uri = (r.uri, r.uri_len) ∧
      st.core_exit_calls = 0 ∧ st1.core_exit_calls = 0 :=
  ⟨by decide, by decide,
    set_request_ring ring3 ring3 0 0 (by decide) (by decide) [call0, call0, call0, call0] call0⟩

/-! ## Scanning: lemmas -/

/-- A string is blank-led when it is empty or starts with a white-space character. -/
theorem head_space_dropWhile (r : List Char) :
    ∀ c, (r.dropWhile (fun c => !isspace c)).head? = some c → isspace c = true := by
  intro c hc
  have h := List.head?_dropWhile_not (fun c => !isspace c) r
  rw [hc] at h
  simpa using h

theorem sscanf_s_inv {s w : List Char} {n : Nat} (h : sscanf_s s = some (w, n)) :
    w ≠ [] ∧ (∀ c ∈ w, isspace c = false) ∧
    ∃ ws rest, s = ws ++ w ++ rest ∧ (∀ c ∈ ws, isspace c = true) ∧ n = ws.length + w.length ∧
      (∀ c, rest.head? = some c → isspace c = true) := by
  unfold sscanf_s at h
  simp only at h
  split_ifs at h with hw
  simp only [Option.some.injEq, Prod.mk.injEq] at h
  obtain ⟨h1, h2⟩ := h
  have hs : s = s.takeWhile isspace ++ s.dropWhile isspace :=
    (List.takeWhile_append_dropWhile isspace s).symm
  have hr : s.dropWhile isspace = w ++ (s.dropWhile isspace).dropWhile (fun c => !isspace c) := by
    rw [← h1]
    exact (List.takeWhile_append_dropWhile _ _).symm
  refine ⟨h1 ▸ hw, ?_, s.takeWhile isspace, (s.dropWhile isspace).dropWhile (fun c => !isspace c),
    ?_, ?_, ?_, head_space_dropWhile _⟩
  · intro c hc
    rw [← h1] at hc
    simpa using List.mem_takeWhile_imp hc
  · rw [List.append_assoc, ← hr]; exact hs
  · intro c hc
    exact List.mem_takeWhile_imp hc
  · rw [← h2, ← h1]
    have : s.length = (s.takeWhile isspace).length + (s.dropWhile isspace).length := by
      have := congrArg List.length hs
      rwa [List.length_append] at this
    omega

theorem sscanf_s_none_iff {s : List Char} :
    sscanf_s s = none ↔ ∀ c ∈ s, isspace c = true := by
  unfold sscanf_s
  simp only
  constructor
  · intro h
    split_ifs at h with hw
    have hd : s.dropWhile isspace = [] := by
      cases hr : s.dropWhile isspace with
      | nil => rfl
      | cons x xs =>
        have hx := List.head?_dropWhile_not isspace s
        rw [hr] at hx hw
        simp at hx
        simp [List.takeWhile_cons, hx] at hw
    exact List.dropWhile_eq_nil_iff.mp hd
  · intro h
    have hd : s.dropWhile isspace = [] := List.dropWhile_eq_nil_iff.mpr h
    simp [hd]

theorem drop_word (ws w rest : List Char) :
    (ws ++ w ++ rest).drop (ws.length + w.length) = rest := by
  rw [← List.length_append]
  exact List.drop_left _ _

theorem tokens_from_word (w : List Char) (hw : ∀ c ∈ w, isspace c = false) :
    ∀ (rest cur : List Char), (∀ c, rest.head? = some c → isspace c = true) →
      tokens_from (w ++ rest) cur =
        if cur ++ w = [] then tokens_from rest [] else (cur ++ w) :: tokens_from (rest.drop 1) [] := by
  induction w with
  | nil =>
    intro rest cur hrest
    cases rest with
    | nil => simp [tokens_from]
    | cons c cs =>
      have := hrest c rfl
      by_cases hcur : cur = [] <;> simp [tokens_from, this, hcur]
  | cons x xs ih =>
    intro rest cur hrest
    have hx := hw x (List.mem_cons_self _ _)
    rw [List.cons_append]
    simp only [tokens_from, hx, Bool.false_eq_true, if_false]
    rw [ih (fun c hc => hw c (List.mem_cons_of_mem _ hc)) rest (cur ++ [x]) hrest]
    simp

theorem tokens_from_space (ws : List Char) (hws : ∀ c ∈ ws, isspace c = true) (r : List Char) :
    tokens_from (ws ++ r) [] = tokens_from r [] := by
  induction ws with
  | nil => rfl
  | cons x xs ih =>
    have hx := hws x (List.mem_cons_self _ _)
    rw [List.cons_append]
    simp only [tokens_from, hx, if_true]
    exact ih (fun c hc => hws c (List.mem_cons_of_mem _ hc))

theorem tokens_drop_one (rest : List Char) (hrest : ∀ c, rest.head? = some c → isspace c = true) :
    tokens_from (rest.drop 1) [] = tokens_from rest [] := by
  cases rest with
  | nil => rfl
  | cons c cs =>
    have := hrest c rfl
    simp [tokens_from, this]

/-- The word that `sscanf` stores is the first token, and the tokens of what follows it are the
remaining tokens. -/
theorem tokens_of_sscanf_s {s w : List Char} {n : Nat} (h : sscanf_s s = some (w, n)) :
    tokens s = w :: tokens (s.drop n) := by
  obtain ⟨hne, hw, ws, rest, rfl, hws, rfl, hrest⟩ := sscanf_s_inv h
  rw [drop_word]
  unfold tokens
  rw [List.append_assoc, tokens_from_space ws hws, tokens_from_word w hw rest [] hrest,
    tokens_drop_one rest hrest]
  simp [hne]

theorem tokens_of_sscanf_s_none {s : List Char} (h : sscanf_s s = none) : tokens s = [] := by
  have hs := sscanf_s_none_iff.mp h
  have := tokens_from_space s hs []
  simpa [tokens, tokens_from] using this

theorem sscanf_s_none_of_tokens {s : List Char} (h : tokens s = []) : sscanf_s s = none := by
  cases hs : sscanf_s s with
  | none => rfl
  | some wn =>
    have := tokens_of_sscanf_s (show sscanf_s s = some (wn.1, wn.2) from hs)
    rw [h] at this
    cases this

/-! ## Argument loop: lemmas -/

/-- The fields of a request that the argument loop never writes. -/
theorem hdrs_add_frame (r : REQ) (text : List Char) :
    (hdrs_add r text).uri = r.uri ∧ (hdrs_add r text).uri_len = r.uri_len ∧
    (hdrs_add r text).next = r.next ∧ (hdrs_add r text).method = r.method ∧
    (hdrs_add r text).contents = r.contents ∧ (hdrs_add r text).contents_len = r.contents_len :=
  ⟨rfl, rfl, rfl, rfl, rfl, rfl⟩

theorem parse_arg_pos {s v : List Char} {n : Nat} (h : parse_arg s = .ok (v, n)) : 0 < n := by
  unfold parse_arg at h
  simp only at h
  split at h
  · cases h
  · cases h
    omega

theorem sscanf_s_pos {s w : List Char} {n : Nat} (h : sscanf_s s = some (w, n)) :
    0 < n ∧ n ≤ s.length := by
  obtain ⟨hne, _, ws, rest, rfl, _, rfl, _⟩ := sscanf_s_inv h
  have := List.length_pos.mpr hne
  simp only [List.length_append]
  omega

theorem arg_dispatch_frame {fs : List Char → Option (List Char)} {r r1 : REQ}
    {s t : List Char} {n n1 : Nat} (h : arg_dispatch fs r s t n = .ok (r1, n1)) :
    r1.uri = r.uri ∧ r1.uri_len = r.uri_len ∧ r1.next = r.next := by
  unfold arg_dispatch at h
  repeat' split at h
  all_goals cases h
  all_goals exact ⟨rfl, rfl, rfl⟩

theorem arg_dispatch_pos {fs : List Char → Option (List Char)} {r r1 : REQ}
    {s t : List Char} {n n1 : Nat} (hn : 0 < n) (h : arg_dispatch fs r s t n = .ok (r1, n1)) :
    0 < n1 := by
  unfold arg_dispatch at h
  repeat' split at h
  all_goals cases h
  all_goals first | exact hn | exact parse_arg_pos (by assumption)

theorem arg_body_frame {fs : List Char → Option (List Char)} {r r1 : REQ}
    {s t : List Char} {n n1 : Nat} (h : arg_body fs r s t n = .ok (r1, n1)) :
    r1.uri = r.uri ∧ r1.uri_len = r.uri_len ∧ r1.next = r.next := by
  unfold arg_body at h
  split at h
  · cases h
  · rename_i r2 n2 hd
    have hf := arg_dispatch_frame hd
    split at h <;>
      (simp only [Except.ok.injEq, Prod.mk.injEq] at h
       obtain ⟨rfl, _⟩ := h
       exact hf)

theorem arg_body_pos {fs : List Char → Option (List Char)} {r r1 : REQ}
    {s t : List Char} {n n1 : Nat} (hn : 0 < n) (h : arg_body fs r s t n = .ok (r1, n1)) :
    0 < n1 := by
  unfold arg_body at h
  split at h
  · cases h
  · rename_i r2 n2 hd
    have hf := arg_dispatch_pos hn hd
    split at h <;>
      (simp only [Except.ok.injEq, Prod.mk.injEq] at h
       obtain ⟨_, rfl⟩ := h
       exact hf)

theorem args_loop_frame (fs : List Char → Option (List Char)) :
    ∀ (fuel : Nat) (r r1 : REQ) (s : List Char), args_loop fs fuel r s = some (.ok r1) →
      r1.uri = r.uri ∧ r1.uri_len = r.uri_len ∧ r1.next = r.next := by
  intro fuel
  induction fuel with
  | zero => intro r r1 s h; simp [args_loop] at h
  | succ fuel ih =>
    intro r r1 s h
    unfold args_loop at h
    split at h
    · cases h; exact ⟨rfl, rfl, rfl⟩
    · split at h
      · cases h
      · rename_i hb
        have h1 := arg_body_frame hb
        have h2 := ih _ _ _ h
        exact ⟨h2.1.trans h1.1, h2.2.1.trans h1.2.1, h2.2.2.trans h1.2.2⟩

/-- The argument loop terminates: with more fuel than characters it never runs out. -/
theorem args_loop_fuel (fs : List Char → Option (List Char)) :
    ∀ (fuel : Nat) (r : REQ) (s : List Char), s.length < fuel → args_loop fs fuel r s ≠ none := by
  intro fuel
  induction fuel with
  | zero => intro r s h; omega
  | succ fuel ih =>
    intro r s h
    unfold args_loop
    split
    · simp
    · rename_i t n hs
      split
      · simp
      · rename_i r1 n1 hb
        have hp := arg_body_pos (sscanf_s_pos hs).1 hb
        have hn := (sscanf_s_pos hs)
        apply ih
        rw [List.length_drop]
        omega

/-- The result of the argument loop does not depend on the fuel once it exceeds the length
of the text. -/
theorem args_loop_fuel_eq (fs : List Char → Option (List Char)) :
    ∀ (fuel1 fuel2 : Nat) (r : REQ) (s : List Char), s.length < fuel1 → s.length < fuel2 →
      args_loop fs fuel1 r s = args_loop fs fuel2 r s := by
  intro fuel1
  induction fuel1 with
  | zero => intro fuel2 r s h; omega
  | succ fuel1 ih =>
    intro fuel2 r s h1 h2
    cases fuel2 with
    | zero => omega
    | succ fuel2 =>
      unfold args_loop
      split
      · rfl
      · rename_i t n hs
        split
        · rfl
        · rename_i r1 n1 hb
          have hp := arg_body_pos (sscanf_s_pos hs).1 hb
          have hn := (sscanf_s_pos hs)
          apply ih <;> (rw [List.length_drop]; omega)

/-! ## Line loop: lemmas -/

theorem length_set_next : ∀ (heap : List REQ) (a : Nat) (q : Option Nat),
    (set_next heap a q).length = heap.length := by
  intro heap
  induction heap with
  | nil => intro a q; rfl
  | cons r rs ih =>
    intro a q
    cases a with
    | zero => rfl
    | succ a => simp [set_next, ih]

theorem getElem?_set_next : ∀ (heap : List REQ) (a : Nat) (q : Option Nat) (i : Nat),
    (set_next heap a q)[i]? =
      if i = a then (heap[i]?).map (fun r => { r with next := q }) else heap[i]? := by
  intro heap
  induction heap with
  | nil => intro a q i; simp [set_next]
  | cons r rs ih =>
    intro a q i
    cases a with
    | zero =>
      cases i with
      | zero => simp [set_next]
      | succ i => simp [set_next]
    | succ a =>
      cases i with
      | zero => simp [set_next]
      | succ i => simp [set_next, ih]

theorem forall₂_set_next {P : List Char → REQ → Prop}
    (hnext : ∀ l r q, P l r → P l { r with next := q })
    {ls : List (List Char)} {heap : List REQ} (h : List.Forall₂ P ls heap) :
    ∀ (a : Nat) (q : Option Nat), List.Forall₂ P ls (set_next heap a q) := by
  induction h with
  | nil => intro a q; exact List.Forall₂.nil
  | cons hr _ ih =>
    intro a q
    cases a with
    | zero => exact List.Forall₂.cons (hnext _ _ q hr) (by assumption)
    | succ a => exact List.Forall₂.cons hr (ih a q)

theorem is_request_line_iff (line : List Char) :
    is_request_line line = true ↔ line.head? ≠ some '#' ∧ sscanf_s line ≠ none := by
  unfold is_request_line
  simp only [Bool.and_eq_true, bne_iff_ne, ne_eq, Bool.not_eq_true', List.isEmpty_eq_false]
  constructor
  · rintro ⟨h1, h2⟩
    exact ⟨h1, fun hn => h2 (tokens_of_sscanf_s_none hn)⟩
  · rintro ⟨h1, h2⟩
    exact ⟨h1, fun hn => h2 (sscanf_s_none_of_tokens hn)⟩

theorem chained_nil (do_loop : Bool) : chained do_loop [] := by
  intro i r h
  simp at h

theorem parse_line_comment (fs : List Char → Option (List Char)) (do_loop : Bool)
    (ps : ParseState) {line : List Char} (hc : line.head? = some '#') :
    parse_line fs do_loop ps line = some (.ok ps) := by
  simp [parse_line, hc]

theorem parse_line_blank (fs : List Char → Option (List Char)) (do_loop : Bool)
    (ps : ParseState) {line : List Char} (hs : sscanf_s line = none) :
    parse_line fs do_loop ps line = some (.ok ps) := by
  simp [parse_line, hs]

theorem parse_line_request (fs : List Char → Option (List Char)) (do_loop : Bool)
    (ps : ParseState) {line uri : List Char} {n : Nat} (hc : line.head? ≠ some '#')
    (hs : sscanf_s line = some (uri, n)) :
    parse_line fs do_loop ps line =
      match args_loop fs (line.length + 1)
        { new_request uri with
          next := if do_loop then
              (match ps.head_reqptr with
                | none => some ps.heap.length
                | some h => some h)
            else none }
        (line.drop n) with
      | none => none
      | some (.error e) => some (.error e)
      | some (.ok r) =>
        some (.ok
          { heap := (match ps.head_reqptr, ps.pre_reqptr with
                | some _, some pre => set_next ps.heap pre (some ps.heap.length)
                | _, _ => ps.heap) ++ [r],
            head_reqptr := (match ps.head_reqptr with
                | none => some ps.heap.length
                | some h => some h),
            pre_reqptr := some ps.heap.length, reqnum := ps.reqnum + 1 }) := by
  simp only [parse_line, hc, hs, if_false]

/-- The line loop never runs out of fuel: every argument loop is started with more fuel than
the line has characters. -/
theorem parse_lines_ne_none (fs : List Char → Option (List Char)) (do_loop : Bool) :
    ∀ (lines : List (List Char)) (ps : ParseState), parse_lines fs do_loop ps lines ≠ none := by
  intro lines
  induction lines with
  | nil => intro ps; simp [parse_lines]
  | cons line rest ih =>
    intro ps
    have hline : parse_line fs do_loop ps line ≠ none := by
      by_cases hc : line.head? = some '#'
      · simp [parse_line_comment fs do_loop ps hc]
      · cases hs : sscanf_s line with
        | none => simp [parse_line_blank fs do_loop ps hs]
        | some un =>
          obtain ⟨uri, n⟩ := un
          rw [parse_line_request fs do_loop ps hc hs]
          split
          · rename_i hnone
            exact absurd hnone
              (args_loop_fuel fs _ _ _ (by rw [List.length_drop]; omega))
          · simp
          · simp
    unfold parse_lines
    cases hl : parse_line fs do_loop ps line with
    | none => exact absurd hl hline
    | some res =>
      cases res with
      | error e => simp
      | ok ps1 => exact ih ps1

/-- The function `parse_config` always returns: a request store or a failure. -/
theorem parse_config_ne_none (fs : List Char → Option (List Char)) (do_loop : Bool)
    (lines : List (List Char)) : parse_config fs do_loop lines ≠ none := by
  unfold parse_config
  cases hp : parse_lines fs do_loop
      { heap := [], head_reqptr := none, pre_reqptr := none, reqnum := 0 } lines with
  | none => exact absurd hp (parse_lines_ne_none fs do_loop lines _)
  | some res => cases res <;> simp

theorem parse_line_inv {fs : List Char → Option (List Char)} {do_loop : Bool}
    {P : List Char → REQ → Prop} (hnext : ∀ l r q, P l r → P l { r with next := q })
    (hnew : ∀ (line uri : List Char) (n fuel : Nat) (q : Option Nat) (r : REQ),
      line.head? ≠ some '#' → sscanf_s line = some (uri, n) →
      args_loop fs fuel { new_request uri with next := q } (line.drop n) = some (.ok r) →
      P line r)
    {ps ps1 : ParseState} {line : List Char} {ls : List (List Char)}
    (hinv : line_loop_inv do_loop ps) (hreq : List.Forall₂ P ls ps.heap)
    (h : parse_line fs do_loop ps line = some (.ok ps1)) :
    line_loop_inv do_loop ps1 ∧
      List.Forall₂ P (ls ++ [line].filter is_request_line) ps1.heap := by
  by_cases hc : line.head? = some '#'
  · rw [parse_line_comment fs do_loop ps hc] at h
    cases h
    have : is_request_line line = false := by
      cases hl : is_request_line line with
      | false => rfl
      | true => exact absurd hc ((is_request_line_iff line).mp hl).1
    simpa [this] using And.intro hinv hreq
  · cases hs : sscanf_s line with
    | none =>
      rw [parse_line_blank fs do_loop ps hs] at h
      cases h
      have : is_request_line line = false := by
        cases hl : is_request_line line with
        | false => rfl
        | true => exact absurd hs ((is_request_line_iff line).mp hl).2
      simpa [this] using And.intro hinv hreq
    | some un =>
      obtain ⟨uri, n⟩ := un
      have hl : is_request_line line = true :=
        (is_request_line_iff line).mpr ⟨hc, by simp [hs]⟩
      rw [parse_line_request fs do_loop ps hc hs] at h
      obtain ⟨hhead, hpre, hch⟩ := hinv
      cases hr : args_loop fs (line.length + 1)
        { new_request uri with
          next := if do_loop then
              (match ps.head_reqptr with
                | none => some ps.heap.length
                | some h => some h)
            else none }
        (line.drop n) with
      | none => rw [hr] at h; cases h
      | some res =>
        cases res with
        | error e => rw [hr] at h; cases h
        | ok r =>
          rw [hr] at h
          simp only [Option.some.injEq, Except.ok.injEq] at h
          subst h
          have hframe := args_loop_frame fs _ _ _ _ hr
          have hrl : P line r := hnew line uri n _ _ r hc hs hr
          by_cases hnil : ps.heap = []
          · simp only [hnil, if_true] at hhead hpre
            simp only [hhead, hpre, hnil, List.length_nil, List.nil_append] at hframe ⊢
            refine ⟨⟨by simp, by simp, ?_⟩, ?_⟩
            · intro i x hx
              cases i with
              | zero =>
                simp only [List.getElem?_cons_zero, Option.some.injEq] at hx
                subst hx
                rw [hframe.2.2]
                simp
              | succ i => simp at hx
            · rw [hnil] at hreq
              cases hreq
              simpa [hl] using hrl
          · simp only [hnil, if_false] at hhead hpre
            have hpos : 0 < ps.heap.length := List.length_pos.mpr hnil
            simp only [hhead, hpre] at hframe ⊢
            refine ⟨⟨by simp, by simp [length_set_next], ?_⟩, ?_⟩
            · intro i x hx
              simp only [List.length_append, length_set_next, List.length_singleton]
              by_cases hi : i < ps.heap.length
              · rw [List.getElem?_append_left (by simpa [length_set_next] using hi),
                  getElem?_set_next] at hx
                have hi1 : i + 1 < ps.heap.length + 1 := by omega
                by_cases hlast : i = ps.heap.length - 1
                · simp only [hlast, if_true, Option.map_eq_some'] at hx
                  obtain ⟨y, _, rfl⟩ := hx
                  have : ps.heap.length - 1 + 1 = ps.heap.length := by omega
                  simp [hlast, this]
                · simp only [hlast, if_false] at hx
                  have := hch i x hx
                  have h2 : i + 1 < ps.heap.length := by omega
                  simp only [h2, if_true] at this
                  simp [this, hi1]
              · have hle : (set_next ps.heap (ps.heap.length - 1)
                    (some ps.heap.length)).length ≤ i := by
                  simpa [length_set_next] using hi
                rw [List.getElem?_append_right hle, length_set_next] at hx
                have hi0 : i - ps.heap.length = 0 := by
                  by_contra hne
                  have : (([r] : List REQ)[i - ps.heap.length]?) = none := by
                    apply List.getElem?_eq_none
                    simp; omega
                  rw [this] at hx
                  cases hx
                rw [hi0] at hx
                simp only [List.getElem?_cons_zero, Option.some.injEq] at hx
                subst hx
                have hieq : i = ps.heap.length := by omega
                rw [hframe.2.2]
                simp [hieq]
            · simp only [hl, List.filter_cons_of_pos, List.filter_nil]
              exact List.rel_append (forall₂_set_next hnext hreq _ _)
                (List.Forall₂.cons hrl List.Forall₂.nil)

theorem parse_lines_inv (fs : List Char → Option (List Char)) (do_loop : Bool)
    {P : List Char → REQ → Prop} (hnext : ∀ l r q, P l r → P l { r with next := q })
    (hnew : ∀ (line uri : List Char) (n fuel : Nat) (q : Option Nat) (r : REQ),
      line.head? ≠ some '#' → sscanf_s line = some (uri, n) →
      args_loop fs fuel { new_request uri with next := q } (line.drop n) = some (.ok r) →
      P line r) :
    ∀ (lines : List (List Char)) (ps ps1 : ParseState) (ls : List (List Char)),
      line_loop_inv do_loop ps → List.Forall₂ P ls ps.heap →
      parse_lines fs do_loop ps lines = some (.ok ps1) →
      line_loop_inv do_loop ps1 ∧
        List.Forall₂ P (ls ++ lines.filter is_request_line) ps1.heap := by
  intro lines
  induction lines with
  | nil =>
    intro ps ps1 ls hinv hreq h
    simp only [parse_lines, Option.some.injEq, Except.ok.injEq] at h
    subst h
    simpa using And.intro hinv hreq
  | cons line rest ih =>
    intro ps ps1 ls hinv hreq h
    unfold parse_lines at h
    split at h
    · cases h
    · cases h
    · rename_i ps2 hl
      obtain ⟨hinv2, hreq2⟩ := parse_line_inv hnext hnew hinv hreq hl
      have := ih ps2 ps1 _ hinv2 hreq2 h
      have hfilt : (line :: rest).filter is_request_line
          = [line].filter is_request_line ++ rest.filter is_request_line := by
        rw [← List.filter_append]; rfl
      rw [hfilt, ← List.append_assoc]
      exact this

/-- A property of the request built for each request line holds of the heap that a successful
`parse_config` returns, line by line in file order, and that heap is chained from the cursor. -/
theorem parse_config_forall₂ (fs : List Char → Option (List Char)) (do_loop : Bool)
    {P : List Char → REQ → Prop} (hnext : ∀ l r q, P l r → P l { r with next := q })
    (hnew : ∀ (line uri : List Char) (n fuel : Nat) (q : Option Nat) (r : REQ),
      line.head? ≠ some '#' → sscanf_s line = some (uri, n) →
      args_loop fs fuel { new_request uri with next := q } (line.drop n) = some (.ok r) →
      P line r)
    {lines : List (List Char)} {st : State}
    (h : parse_config fs do_loop lines = some (.ok st)) :
    List.Forall₂ P (lines.filter is_request_line) st.heap ∧
      st.cur_req_ptr = (if st.heap = [] then none else some 0) ∧ chained do_loop st.heap := by
  unfold parse_config at h
  cases hp : parse_lines fs do_loop
      { heap := [], head_reqptr := none, pre_reqptr := none, reqnum := 0 } lines with
  | none => rw [hp] at h; cases h
  | some res =>
    cases res with
    | error e => rw [hp] at h; cases h
    | ok ps =>
      rw [hp] at h
      simp only [Option.some.injEq, Except.ok.injEq] at h
      subst h
      have hinit : line_loop_inv do_loop
          { heap := [], head_reqptr := none, pre_reqptr := none, reqnum := 0 } :=
        ⟨rfl, rfl, chained_nil do_loop⟩
      obtain ⟨⟨hhead, _, hch⟩, hreq⟩ :=
        parse_lines_inv fs do_loop hnext hnew lines _ ps [] hinit List.Forall₂.nil hp
      exact ⟨by simpa using hreq, hhead, hch⟩

theorem sscanf_lit_s_append (lit v : List Char) :
    sscanf_lit_s lit (lit ++ v) = (sscanf_s v).map Prod.fst := by
  induction lit with
  | nil => cases v <;> rfl
  | cons l ls ih => simp [sscanf_lit_s, ih]

theorem sscanf_lit_s_empty (lit : List Char) : sscanf_lit_s lit lit = none := by
  have := sscanf_lit_s_append lit []
  simpa [sscanf_s] using this

theorem sscanf_lit_s_mismatch : ∀ (lit t : List Char), ¬ lit <+: t → sscanf_lit_s lit t = none := by
  intro lit
  induction lit with
  | nil => intro t h; exact absurd (List.nil_prefix) h
  | cons l ls ih =>
    intro t h
    cases t with
    | nil => rfl
    | cons c cs =>
      by_cases hlc : l = c
      · subst hlc
        simp only [sscanf_lit_s, if_true]
        apply ih
        intro hp
        exact h ((List.cons_prefix_cons).mpr ⟨rfl, hp⟩)
      · simp [sscanf_lit_s, hlc]

theorem arg_dispatch_unknown (fs : List Char → Option (List Char)) (r : REQ)
    (s t : List Char) (n : Nat) (hkey : ∀ key ∈ arg_keys, ¬ key <+: t) :
    arg_dispatch fs r s t n = .error Failure.MalformedLine := by
  have h1 := sscanf_lit_s_mismatch _ t (hkey "method=".toList (by simp [arg_keys]))
  have h2 := sscanf_lit_s_mismatch _ t (hkey "content-type=".toList (by simp [arg_keys]))
  have h3 := sscanf_lit_s_mismatch _ t (hkey "cookie=".toList (by simp [arg_keys]))
  have h4 := sscanf_lit_s_mismatch _ t (hkey "header=".toList (by simp [arg_keys]))
  have h5 := sscanf_lit_s_mismatch _ t (hkey "file=".toList (by simp [arg_keys]))
  have h6 := sscanf_lit_s_mismatch _ t (hkey "contents=".toList (by simp [arg_keys]))
  simp only [arg_dispatch, h1, h2, h3, h4, h5, h6]

/-- Whether the key dispatch fails, and the `bytes_read` it gives, do not depend on the
request under construction. -/
theorem arg_dispatch_ok_indep {fs : List Char → Option (List Char)} {r r1 : REQ}
    {s t : List Char} {n n1 : Nat} (h : arg_dispatch fs r s t n = .ok (r1, n1)) (r0 : REQ) :
    ∃ r2, arg_dispatch fs r0 s t n = .ok (r2, n1) := by
  unfold arg_dispatch at h ⊢
  repeat' split at h
  all_goals cases h
  all_goals simp [*]

theorem arg_body_ok_indep {fs : List Char → Option (List Char)} {r r1 : REQ}
    {s t : List Char} {n n1 : Nat} (h : arg_body fs r s t n = .ok (r1, n1)) (r0 : REQ) :
    ∃ r2, arg_body fs r0 s t n = .ok (r2, n1) := by
  unfold arg_body at h ⊢
  split at h
  · cases h
  · rename_i r3 n3 hd
    obtain ⟨r4, h4⟩ := arg_dispatch_ok_indep hd r0
    have hn : n3 = n1 := by
      split at h <;> (cases h; rfl)
    subst hn
    rw [h4]
    simp only
    split <;> exact ⟨_, rfl⟩

theorem args_reach_indep {fs : List Char → Option (List Char)} {r r2 : REQ}
    {s s2 : List Char} (h : ArgsReach fs r s r2 s2) :
    ∀ r0 : REQ, ∃ r3, ArgsReach fs r0 s r3 s2 := by
  induction h with
  | here r s => intro r0; exact ⟨r0, ArgsReach.here r0 s⟩
  | next hs hb _ ih =>
    intro r0
    obtain ⟨r4, h4⟩ := arg_body_ok_indep hb r0
    obtain ⟨r3, h3⟩ := ih r4
    exact ⟨r3, ArgsReach.next hs h4 h3⟩

theorem args_loop_of_reach {fs : List Char → Option (List Char)} {r r2 : REQ}
    {s s2 : List Char} (h : ArgsReach fs r s r2 s2) :
    ∀ fuel, s.length < fuel → args_loop fs fuel r s = args_loop fs (s2.length + 1) r2 s2 := by
  induction h with
  | here r s => intro fuel hf; exact args_loop_fuel_eq fs _ _ r s hf (by omega)
  | next hs hb _ ih =>
    rename_i r r1 r2 s s2 t n n1
    intro fuel hf
    cases fuel with
    | zero => omega
    | succ fuel =>
      have hp := arg_body_pos (sscanf_s_pos hs).1 hb
      have hn := sscanf_s_pos hs
      rw [args_loop]
      simp only [hs, hb]
      apply ih
      rw [List.length_drop]
      omega

theorem parse_lines_append (fs : List Char → Option (List Char)) (do_loop : Bool) :
    ∀ (a b : List (List Char)) (ps ps1 : ParseState),
      parse_lines fs do_loop ps a = some (.ok ps1) →
      parse_lines fs do_loop ps (a ++ b) = parse_lines fs do_loop ps1 b := by
  intro a
  induction a with
  | nil =>
    intro b ps ps1 h
    simp only [parse_lines, Option.some.injEq, Except.ok.injEq] at h
    subst h; rfl
  | cons l ls ih =>
    intro b ps ps1 h
    simp only [List.cons_append, parse_lines] at h ⊢
    cases hl : parse_line fs do_loop ps l with
    | none => rw [hl] at h; cases h
    | some res =>
      cases res with
      | error e => rw [hl] at h; cases h
      | ok ps2 =>
        rw [hl] at h
        simp only at h ⊢
        exact ih b ps2 ps1 h

/-! ## Claims C3, C4, C9, C10 -/

/-- C3 (failing input): on the line `/x contents=abc method=POST` the block that generates
`Content-Length` runs after each of the two arguments, and the header block of the request
ends up with two `Content-Length` lines. -/
theorem content_length_appended_twice :
    ∃ r, parse_config no_files false ["/x contents=abc method=POST\n".toList]
        = some (.ok ⟨[r], some 0, 0⟩) ∧
      r.contents = some "abc".toList ∧ r.contents_len = 3 ∧
      r.extra_hdrs = "Content-Length: 3\r\nContent-Length: 3\r\n".toList ∧
      content_length_lines r.extra_hdrs = 2 :=
  ⟨{ next := none, method := Method.HM_POST, uri := some "/x".toList, uri_len := 2,
     contents := some "abc".toList, contents_len := 3,
     extra_hdrs := "Content-Length: 3\r\nContent-Length: 3\r\n".toList, extra_hdrs_len := 38 },
   by decide, rfl, rfl, rfl, by decide⟩

/-- C9 (counterexample): a backslash followed by the newline character does not contribute
the newline to the output: the tokenizer fails. -/
theorem escape_before_newline_fails :
    parse_arg_loop [backslash, '\n'] [] false false false false 0
        = .error Failure.PrematureEscapeEOF ∧
    parse_arg_loop [backslash, '\n'] [] false false false false 0
        ≠ parse_arg_loop [] ([] ++ ['\n']) false false false false 2 ∧
    parse_arg ("header=a".toList ++ [backslash, '\n']) = .error Failure.PrematureEscapeEOF := by
  decide

/-- C9 (amended): in any quoting state, a backslash followed by a character `c` other than
newline contributes exactly one output character (newline for `n`, carriage return for `r`,
tab for `t`, `c` itself otherwise) and the scan goes on after `c` in the same quoting state,
the token not being ended. -/
theorem escape_decodes_one_char (c : Char) (hc : c ≠ '\n') (rest out : List Char)
    (single_quoted double_quoted : Bool) (n : Nat) :
    parse_arg_loop (backslash :: c :: rest) out single_quoted double_quoted false false n =
      parse_arg_loop rest
        (out ++ [if c = 'n' then '\n' else if c = 'r' then '\r' else if c = 't' then '\t' else c])
        single_quoted double_quoted false false (n + 2) := by
  have h1 : backslash ≠ dquote := by decide
  have h2 : backslash ≠ squote := by decide
  have h3 : backslash ≠ '\t' := by decide
  have h4 : backslash ≠ '\n' := by decide
  have h5 : backslash ≠ ' ' := by decide
  simp only [parse_arg_loop, h1, h2, h3, h4, h5, Bool.false_eq_true, if_false, decide_False,
    Bool.false_and, Bool.or_self, if_true, hc]
  split_ifs <;> rfl

theorem escape_decodes_one_char_witness :
    'n' ≠ '\n' ∧
    parse_arg_loop (backslash :: 'n' :: ("line2".toList ++ [squote])) "line1".toList
        true false false false 6 =
      parse_arg_loop ("line2".toList ++ [squote])
        ("line1".toList ++
          [if 'n' = 'n' then '\n' else if 'n' = 'r' then '\r' else if 'n' = 't' then '\t' else 'n'])
        true false false false (6 + 2) ∧
    parse_arg ("contents=".toList ++ [squote] ++ "line1".toList ++ [backslash, 'n'] ++
        "line2".toList ++ [squote]) = .ok ("line1\nline2".toList, 23) ∧
    "line1\nline2".toList.length = 11 :=
  ⟨by decide, escape_decodes_one_char 'n' (by decide) _ _ true false 6, by decide, by decide⟩

/-- C10 (failing input): on the input `cookie=a\` that ends right after the backslash (a last
line without a newline) the tokenizer returns the value `a` instead of failing; it fails
only when a newline follows the backslash. -/
theorem escape_at_end_of_input_returns :
    parse_arg ("cookie=a".toList ++ [backslash]) = .ok (['a'], 9) ∧
    parse_arg ("cookie=a".toList ++ [backslash, '\n']) = .error Failure.PrematureEscapeEOF ∧
    parse_config no_files false ["/x cookie=a".toList ++ [backslash]]
      = some (.ok ⟨[{ new_request "/x".toList with
                      extra_hdrs := "Cookie: a\r\n".toList, extra_hdrs_len := 11 }], some 0, 0⟩) := by
  decide

/-! ## Claims C5 and C6 -/

/-- C5 (counterexample): the second line has an argument with an unrecognised key, yet the
parse fails with the failure of the earlier `file=` argument (respectively of the earlier
escape before a newline), not with `MalformedLine`. -/
theorem unknown_key_after_other_failure :
    parse_config no_files false ["/a file=missing\n".toList, "/b bogus=1\n".toList]
      = some (.error Failure.ContentFileNotFound) ∧
    parse_config no_files false
        ["/a cookie=x".toList ++ [backslash, '\n'], "/b bogus=1\n".toList]
      = some (.error Failure.PrematureEscapeEOF) ∧
    parse_config no_files false ["/b bogus=1\n".toList] = some (.error Failure.MalformedLine) := by
  decide

theorem parse_config_fails_of_reach (fs : List Char → Option (List Char)) (do_loop : Bool)
    (pre post : List (List Char)) (line uri s : List Char) (n : Nat)
    (st : State) (r0 r : REQ) (e : Failure)
    (hpre : parse_config fs do_loop pre = some (.ok st))
    (hc : line.head? ≠ some '#') (hs : sscanf_s line = some (uri, n))
    (hreach : ArgsReach fs r0 (line.drop n) r s)
    (hfail : ∀ r3 : REQ, args_loop fs (s.length + 1) r3 s = some (.error e)) :
    parse_config fs do_loop (pre ++ line :: post) = some (.error e) := by
  unfold parse_config at hpre ⊢
  cases hp : parse_lines fs do_loop
      { heap := [], head_reqptr := none, pre_reqptr := none, reqnum := 0 } pre with
  | none => rw [hp] at hpre; cases hpre
  | some res =>
    cases res with
    | error e => rw [hp] at hpre; cases hpre
    | ok ps =>
      rw [parse_lines_append fs do_loop pre (line :: post) _ ps hp]
      have hloop : ∀ r1 : REQ, args_loop fs (line.length + 1) r1 (line.drop n)
          = some (.error e) := by
        intro r1
        obtain ⟨r3, h3⟩ := args_reach_indep hreach r1
        rw [args_loop_of_reach h3 (line.length + 1) (by rw [List.length_drop]; omega)]
        exact hfail r3
      simp only [parse_lines, parse_line_request fs do_loop ps hc hs, hloop]

/-- C5 (amended): when the lines before a request line parse without failure, and the argument
loop on that line, having processed the arguments before it without failure, comes to a token
that starts with none of the six keys, then `parse_config` fails with `MalformedLine` and
returns no request store, whatever follows the token on the line and whatever lines follow. -/
theorem unknown_key_fails (fs : List Char → Option (List Char)) (do_loop : Bool)
    (pre post : List (List Char)) (line uri s this_arg : List Char) (n m : Nat)
    (st : State) (r0 r : REQ)
    (hpre : parse_config fs do_loop pre = some (.ok st))
    (hc : line.head? ≠ some '#') (hs : sscanf_s line = some (uri, n))
    (hreach : ArgsReach fs r0 (line.drop n) r s)
    (hthis : sscanf_s s = some (this_arg, m))
    (hkey : ∀ key ∈ arg_keys, ¬ key <+: this_arg) :
    parse_config fs do_loop (pre ++ line :: post) = some (.error Failure.MalformedLine) := by
  apply parse_config_fails_of_reach fs do_loop pre post line uri s n st r0 r _ hpre hc hs hreach
  intro r3
  rw [args_loop]
  simp only [hthis, arg_body, arg_dispatch_unknown fs r3 s this_arg m hkey]

theorem unknown_key_fails_witness :
    parse_config no_files false
      (["/a\n".toList] ++ "/b method=PUT bogus=1 cookie=x\n".toList :: ["/c\n".toList])
      = some (.error Failure.MalformedLine) :=
  unknown_key_fails no_files false ["/a\n".toList] ["/c\n".toList]
    "/b method=PUT bogus=1 cookie=x\n".toList "/b".toList " bogus=1 cookie=x\n".toList
    "bogus=1".toList 2 8 ⟨[new_request "/a".toList], some 0, 0⟩
    (new_request "/b".toList) { new_request "/b".toList with method := Method.HM_PUT }
    (by decide) (by decide) (by decide)
    (@ArgsReach.next _ _ _ _ _ _ "method=PUT".toList 11 11
      (by decide) (by decide) (ArgsReach.here _ _))
    (by decide) (by decide)

theorem arg_body_contents_eq {fs : List Char → Option (List Char)} {r r1 : REQ}
    {s t : List Char} {n n1 : Nat} (h : arg_body fs r s t n = .ok (r1, n1)) :
    ∃ r2, arg_dispatch fs r s t n = .ok (r2, n1) ∧ r1.contents = r2.contents ∧
      (r2.contents_len ≤ 0 → r1 = r2) := by
  unfold arg_body at h
  split at h
  · cases h
  · rename_i r2 n2 hd
    split at h
    · cases h
      exact ⟨_, hd, rfl, fun hle => by omega⟩
    · cases h
      exact ⟨_, hd, rfl, fun _ => rfl⟩

theorem parse_arg_loop_in_squotes (rest : List Char) :
    ∀ (s out : List Char) (n : Nat), (∀ c ∈ s, c ≠ squote ∧ c ≠ backslash) →
      parse_arg_loop (s ++ rest) out true false false false n =
        parse_arg_loop rest (out ++ s) true false false false (n + s.length) := by
  intro s
  induction s with
  | nil => intro out n _; simp
  | cons c cs ih =>
    intro out n h
    obtain ⟨h1, h2⟩ := h c (List.mem_cons_self _ _)
    have hstep : parse_arg_loop (c :: (cs ++ rest)) out true false false false n =
        parse_arg_loop (cs ++ rest) (out ++ [c]) true false false false (n + 1) := by
      simp only [parse_arg_loop, h1, h2, Bool.false_eq_true, if_false, Bool.and_false,
        decide_False, Bool.false_and, Bool.and_true, decide_eq_true_eq, if_true]
      split_ifs
      all_goals first | rfl | simp_all
    rw [List.cons_append, hstep, ih (out ++ [c]) (n + 1) (fun x hx => h x (List.mem_cons_of_mem _ hx))]
    simp only [List.append_assoc, List.singleton_append, List.length_cons]
    congr 1
    omega

theorem parse_arg_start (key body : List Char) (hkey : ∀ c ∈ key, c ≠ '=') :
    parse_arg (key ++ '=' :: body) =
      match parse_arg_loop body [] false false false false 0 with
      | .error e => .error e
      | .ok (arg_contents, n) => .ok (arg_contents, key.length + 1 + n) := by
  have htake : (key ++ '=' :: body).takeWhile (fun c => c != '=') = key := by
    rw [List.takeWhile_append_of_pos (by intro a ha; simpa using hkey a ha)]
    simp
  have hdrop : (key ++ '=' :: body).drop (key.length + 1) = body := by
    rw [List.drop_append_eq_append_drop]
    simp
  unfold parse_arg
  simp only [htake, hdrop]

theorem parse_arg_loop_in_dquotes (rest : List Char) :
    ∀ (s out : List Char) (n : Nat), (∀ c ∈ s, c ≠ dquote ∧ c ≠ backslash) →
      parse_arg_loop (s ++ rest) out false true false false n =
        parse_arg_loop rest (out ++ s) false true false false (n + s.length) := by
  intro s
  induction s with
  | nil => intro out n _; simp
  | cons c cs ih =>
    intro out n h
    obtain ⟨h1, h2⟩ := h c (List.mem_cons_self _ _)
    have hstep : parse_arg_loop (c :: (cs ++ rest)) out false true false false n =
        parse_arg_loop (cs ++ rest) (out ++ [c]) false true false false (n + 1) := by
      simp only [parse_arg_loop, h1, h2, Bool.false_eq_true, if_false, Bool.and_false,
        decide_False, Bool.false_and, Bool.and_true, decide_eq_true_eq, if_true]
      split_ifs
      all_goals first | rfl | simp_all
    rw [List.cons_append, hstep, ih (out ++ [c]) (n + 1) (fun x hx => h x (List.mem_cons_of_mem _ hx))]
    simp only [List.append_assoc, List.singleton_append, List.length_cons]
    congr 1
    omega

theorem parse_arg_loop_plain (rest : List Char) :
    ∀ (v out : List Char) (n : Nat),
      (∀ c ∈ v, c ≠ '\t' ∧ c ≠ '\n' ∧ c ≠ ' ' ∧ c ≠ squote ∧ c ≠ dquote ∧ c ≠ backslash) →
      parse_arg_loop (v ++ rest) out false false false false n =
        parse_arg_loop rest (out ++ v) false false false false (n + v.length) := by
  intro v
  induction v with
  | nil => intro out n _; simp
  | cons c cs ih =>
    intro out n h
    obtain ⟨h1, h2, h3, h4, h5, h6⟩ := h c (List.mem_cons_self _ _)
    have hstep : parse_arg_loop (c :: (cs ++ rest)) out false false false false n =
        parse_arg_loop (cs ++ rest) (out ++ [c]) false false false false (n + 1) := by
      simp only [parse_arg_loop, h1, h2, h3, h4, h5, h6, Bool.false_eq_true, if_false,
        Bool.and_false, decide_False, Bool.false_and, Bool.or_self]
    rw [List.cons_append, hstep, ih (out ++ [c]) (n + 1) (fun x hx => h x (List.mem_cons_of_mem _ hx))]
    simp only [List.append_assoc, List.singleton_append, List.length_cons]
    congr 1
    omega

theorem parse_arg_loop_end (w : Char) (hw : w = '\t' ∨ w = '\n' ∨ w = ' ') (rest out : List Char)
    (n : Nat) : parse_arg_loop (w :: rest) out false false false false n = .ok (out, n + 1) := by
  rcases hw with rfl | rfl | rfl <;> cases rest <;> rfl

theorem parse_arg_loop_tail (tail out : List Char) (n : Nat)
    (htail : tail = [] ∨ ∃ w rest, tail = w :: rest ∧ (w = '\t' ∨ w = '\n' ∨ w = ' ')) :
    parse_arg_loop tail out false false false false n = .ok (out, n + min 1 tail.length) := by
  rcases htail with rfl | ⟨w, rest, rfl, hw⟩
  · rfl
  · rw [parse_arg_loop_end w hw]
    simp

/-- C11: for every text `s` without single quote and backslash, the tokenizer decodes
`key='s'`, followed by the end of the input or by a tab, newline or space, to exactly `s`
(white space and double quotes inside `s` are kept, the surrounding quotes are not in the
output); and the same with the roles of the single and the double quote exchanged. -/
theorem quoted_value_decodes (key s tail : List Char) (hkey : ∀ c ∈ key, c ≠ '=')
    (htail : tail = [] ∨ ∃ w rest, tail = w :: rest ∧ (w = '\t' ∨ w = '\n' ∨ w = ' ')) :
    ((∀ c ∈ s, c ≠ squote ∧ c ≠ backslash) →
      parse_arg (key ++ '=' :: squote :: (s ++ squote :: tail))
        = .ok (s, key.length + 1 + (s.length + 2 + min 1 tail.length))) ∧
    ((∀ c ∈ s, c ≠ dquote ∧ c ≠ backslash) →
      parse_arg (key ++ '=' :: dquote :: (s ++ dquote :: tail))
        = .ok (s, key.length + 1 + (s.length + 2 + min 1 tail.length))) := by
  constructor
  · intro hs
    have hopen : parse_arg_loop (squote :: (s ++ squote :: tail)) [] false false false false 0
        = parse_arg_loop (s ++ squote :: tail) [] true false false false 1 := rfl
    have hclose : ∀ n, parse_arg_loop (squote :: tail) s true false false false n
        = parse_arg_loop tail s false false false false (n + 1) := fun n => rfl
    rw [parse_arg_start key _ hkey, hopen, parse_arg_loop_in_squotes _ s [] 1 hs,
      List.nil_append, hclose, parse_arg_loop_tail tail s _ htail]
    simp only [Except.ok.injEq, Prod.mk.injEq, true_and]
    omega
  · intro hs
    have hopen : parse_arg_loop (dquote :: (s ++ dquote :: tail)) [] false false false false 0
        = parse_arg_loop (s ++ dquote :: tail) [] false true false false 1 := rfl
    have hclose : ∀ n, parse_arg_loop (dquote :: tail) s false true false false n
        = parse_arg_loop tail s false false false false (n + 1) := fun n => rfl
    rw [parse_arg_start key _ hkey, hopen, parse_arg_loop_in_dquotes _ s [] 1 hs,
      List.nil_append, hclose, parse_arg_loop_tail tail s _ htail]
    simp only [Except.ok.injEq, Prod.mk.injEq, true_and]
    omega

theorem quoted_value_decodes_witness :
    (parse_arg ("contents".toList ++ '=' :: squote ::
        (['a', ' ', dquote, 'b', dquote, '\t', 'c'] ++ squote :: " method=PUT".toList))
      = .ok (['a', ' ', dquote, 'b', dquote, '\t', 'c'],
          "contents".toList.length + 1
            + ((['a', ' ', dquote, 'b', dquote, '\t', 'c'] : List Char).length + 2
                + min 1 " method=PUT".toList.length))) ∧
    (parse_arg ("header".toList ++ '=' :: dquote ::
        (['X', ':', ' ', squote, 'y', squote] ++ dquote :: []))
      = .ok (['X', ':', ' ', squote, 'y', squote],
          "header".toList.length + 1
            + ((['X', ':', ' ', squote, 'y', squote] : List Char).length + 2
                + min 1 ([] : List Char).length))) :=
  ⟨(quoted_value_decodes "contents".toList ['a', ' ', dquote, 'b', dquote, '\t', 'c']
      " method=PUT".toList (by decide) (Or.inr ⟨' ', "method=PUT".toList, rfl, Or.inr (Or.inr rfl)⟩)).1
      (by decide),
   (quoted_value_decodes "header".toList ['X', ':', ' ', squote, 'y', squote] []
      (by decide) (Or.inl rfl)).2 (by decide)⟩

/-- C12: for every value `v` without tab, newline, space, quote and backslash, every `w` among
tab, newline and space and every remainder `rest`, the tokenizer decodes `key=` followed by
`v`, `w` and `rest` to exactly `v`: the white space ends the token and nothing of `rest` is in
the output. -/
theorem unquoted_value_ends_at_space (key v rest : List Char) (w : Char)
    (hkey : ∀ c ∈ key, c ≠ '=')
    (hv : ∀ c ∈ v, c ≠ '\t' ∧ c ≠ '\n' ∧ c ≠ ' ' ∧ c ≠ squote ∧ c ≠ dquote ∧ c ≠ backslash)
    (hw : w = '\t' ∨ w = '\n' ∨ w = ' ') :
    parse_arg (key ++ '=' :: (v ++ w :: rest)) = .ok (v, key.length + 1 + (v.length + 1)) := by
  rw [parse_arg_start key _ hkey, parse_arg_loop_plain _ v [] 0 hv, List.nil_append,
    parse_arg_loop_end w hw]
  simp

theorem unquoted_value_ends_at_space_witness :
    parse_arg ("cookie".toList ++ '=' :: ("a=b;c".toList ++ '\t' :: "header=x y".toList))
      = .ok ("a=b;c".toList, "cookie".toList.length + 1 + ("a=b;c".toList.length + 1)) :=
  unquoted_value_ends_at_space "cookie".toList "a=b;c".toList "header=x y".toList '\t'
    (by decide) (by decide) (Or.inl rfl)

/-- C19 (failing input): on the text ` cookie=ab method=GET` that `parse_config` passes for
the argument `cookie=ab`, the tokenizer reports `bytes_read = 11`, and the character at offset
11 is the `m` of the next argument: neither the end of the input nor white space. The white
space that ended the token is at offset 10. -/
theorem bytes_read_past_the_space :
    parse_arg " cookie=ab method=GET\n".toList = .ok ("ab".toList, 11) ∧
    " cookie=ab method=GET\n".toList[11]? = some 'm' ∧
    " cookie=ab method=GET\n".toList[10]? = some ' ' ∧
    isspace 'm' = false := by
  decide

theorem parse_arg_loop_bound :
    ∀ (src out : List Char) (single_quoted double_quoted escaped done : Bool) (n : Nat)
      (v : List Char) (m : Nat),
      parse_arg_loop src out single_quoted double_quoted escaped done n = .ok (v, m) →
      n ≤ m ∧ m ≤ n + src.length := by
  intro src
  induction src with
  | nil =>
    intro out sq dq esc done n v m h
    simp only [parse_arg_loop, Except.ok.injEq, Prod.mk.injEq] at h
    simp [h.2]
  | cons ch rest ih =>
    intro out sq dq esc done n v m h
    unfold parse_arg_loop at h
    simp only [List.length_cons]
    split_ifs at h
    all_goals first
      | (simp only [Except.ok.injEq, Prod.mk.injEq] at h; omega)
      | (have hb := ih _ _ _ _ _ _ _ _ h; omega)

theorem takeWhile_ne_length_eq_indexOf (c : Char) : ∀ (s : List Char),
    (s.takeWhile (fun x => x != c)).length = s.indexOf c := by
  intro s
  induction s with
  | nil => rfl
  | cons x xs ih =>
    by_cases hx : x = c
    · subst hx
      simp [List.takeWhile_cons]
    · have hb : (x == c) = false := by simpa using hx
      simp [List.takeWhile_cons, List.indexOf_cons, hb, hx, ih]

theorem parse_arg_bound {input v : List Char} {c : Nat} (heq : '=' ∈ input)
    (h : parse_arg input = .ok (v, c)) : input.indexOf '=' < c ∧ c ≤ input.length := by
  unfold parse_arg at h
  simp only at h
  split at h
  · cases h
  · rename_i v1 n hloop
    cases h
    have hb := parse_arg_loop_bound _ _ _ _ _ _ _ _ _ hloop
    have hidx := takeWhile_ne_length_eq_indexOf '=' input
    have hlt : input.indexOf '=' < input.length := List.indexOf_lt_length.mpr heq
    rw [hidx] at hb ⊢
    simp only [List.length_drop] at hb
    omega

theorem mem_of_sscanf_lit_s : ∀ (lit t : List Char) {v : List Char} {c : Char},
    sscanf_lit_s lit t = some v → c ∈ lit → c ∈ t := by
  intro lit
  induction lit with
  | nil => intro t v c _ hc; simp at hc
  | cons l ls ih =>
    intro t v c h hc
    cases t with
    | nil => simp [sscanf_lit_s] at h
    | cons x xs =>
      by_cases hlx : l = x
      · subst hlx
        simp only [sscanf_lit_s, if_true] at h
        rcases List.mem_cons.mp hc with rfl | hc
        · exact List.mem_cons_self _ _
        · exact List.mem_cons_of_mem _ (ih xs h hc)
      · simp [sscanf_lit_s, hlx] at h

theorem arg_dispatch_le {fs : List Char → Option (List Char)} {r r1 : REQ}
    {s t : List Char} {n n1 : Nat} (hn : n ≤ s.length) (ht : ∀ c ∈ t, c ∈ s)
    (h : arg_dispatch fs r s t n = .ok (r1, n1)) : n1 ≤ s.length := by
  unfold arg_dispatch at h
  repeat' split at h
  all_goals cases h
  all_goals first
    | exact hn
    | exact (parse_arg_bound (ht _ (mem_of_sscanf_lit_s _ _ (by assumption) (by decide)))
        (by assumption)).2

theorem arg_body_le {fs : List Char → Option (List Char)} {r r1 : REQ}
    {s t : List Char} {n n1 : Nat} (hs : sscanf_s s = some (t, n))
    (h : arg_body fs r s t n = .ok (r1, n1)) : n1 ≤ s.length := by
  obtain ⟨r2, hd, _, _⟩ := arg_body_contents_eq h
  refine arg_dispatch_le (sscanf_s_pos hs).2 ?_ hd
  obtain ⟨_, _, ws, rest, rfl, _, _, _⟩ := sscanf_s_inv hs
  intro c hc
  simp [hc]

/-- C20: on every input that contains `=` and on which the tokenizer returns, the count it
reports is greater than the index of the first `=` and at most the length of the input; every
body of the argument loop of `parse_config` that does not fail advances the position by at
least one character and not beyond the end of the text; and the loop ends on every text
within as many bodies as the text has characters. -/
theorem argument_loop_advances (fs : List Char → Option (List Char)) :
    (∀ (input v : List Char) (c : Nat), '=' ∈ input → parse_arg input = .ok (v, c) →
      input.indexOf '=' < c ∧ c ≤ input.length) ∧
    (∀ (r r1 : REQ) (s this_arg : List Char) (n n1 : Nat),
      sscanf_s s = some (this_arg, n) → arg_body fs r s this_arg n = .ok (r1, n1) →
      1 ≤ n1 ∧ n1 ≤ s.length ∧ (s.drop n1).length < s.length) ∧
    (∀ (r : REQ) (s : List Char) (fuel : Nat), s.length < fuel → args_loop fs fuel r s ≠ none) ∧
    (∀ (do_loop : Bool) (lines : List (List Char)), parse_config fs do_loop lines ≠ none) := by
  refine ⟨fun input v c heq h => parse_arg_bound heq h, ?_, ?_, ?_⟩
  · intro r r1 s t n n1 hs h
    have h1 := arg_body_pos (sscanf_s_pos hs).1 h
    have h2 := arg_body_le hs h
    have h3 := (sscanf_s_pos hs)
    refine ⟨h1, h2, ?_⟩
    rw [List.length_drop]
    omega
  · intro r s fuel h
    exact args_loop_fuel fs fuel r s h
  · intro do_loop lines
    exact parse_config_ne_none fs do_loop lines

theorem argument_loop_advances_witness :
    ('=' ∈ " cookie=ab method=GET\n".toList ∧
      parse_arg " cookie=ab method=GET\n".toList = .ok ("ab".toList, 11) ∧
      " cookie=ab method=GET\n".toList.indexOf '=' < 11 ∧
      11 ≤ " cookie=ab method=GET\n".toList.length) ∧
    args_loop no_files (" cookie=ab method=GET\n".toList.length + 1) (new_request "/x".toList)
      " cookie=ab method=GET\n".toList ≠ none :=
  ⟨⟨by decide, by decide,
    (argument_loop_advances no_files).1 " cookie=ab method=GET\n".toList "ab".toList 11
      (by decide) (by decide)⟩,
   (argument_loop_advances no_files).2.2.1 (new_request "/x".toList)
      " cookie=ab method=GET\n".toList _ (by decide)⟩

/-! ## Claims C15, C16, C18 -/

theorem arg_dispatch_hdrs_len {fs : List Char → Option (List Char)} {r r1 : REQ}
    {s t : List Char} {n n1 : Nat} (h : arg_dispatch fs r s t n = .ok (r1, n1))
    (hr : r.extra_hdrs_len = r.extra_hdrs.length) :
    r1.extra_hdrs_len = r1.extra_hdrs.length := by
  unfold arg_dispatch at h
  repeat' split at h
  all_goals cases h
  all_goals first | exact hr | rfl

theorem args_loop_hdrs_len (fs : List Char → Option (List Char)) :
    ∀ (fuel : Nat) (r r1 : REQ) (s : List Char), args_loop fs fuel r s = some (.ok r1) →
      r.extra_hdrs_len = r.extra_hdrs.length → r1.extra_hdrs_len = r1.extra_hdrs.length := by
  intro fuel
  induction fuel with
  | zero => intro r r1 s h; simp [args_loop] at h
  | succ fuel ih =>
    intro r r1 s h hr
    unfold args_loop at h
    split at h
    · cases h; exact hr
    · split at h
      · cases h
      · rename_i r2 n2 hb
        apply ih _ _ _ h
        unfold arg_body at hb
        split at hb
        · cases hb
        · rename_i r3 n3 hd
          have h3 := arg_dispatch_hdrs_len hd hr
          split at hb
          · cases hb; rfl
          · cases hb; exact h3

/-- In every request of a successful parse the header length field is the length of the
header block. -/
theorem parse_config_hdrs_len (fs : List Char → Option (List Char)) (do_loop : Bool)
    (lines : List (List Char)) (st : State)
    (h : parse_config fs do_loop lines = some (.ok st)) :
    ∀ r ∈ st.heap, r.extra_hdrs_len = r.extra_hdrs.length := by
  have hall := (@parse_config_forall₂ fs do_loop
    (fun _ r => r.extra_hdrs_len = r.extra_hdrs.length)
    (fun _ _ _ hP => hP)
    (fun line uri n fuel q r _ _ hr => args_loop_hdrs_len fs fuel _ r _ hr rfl)
    lines st h).1
  intro r hr
  obtain ⟨i, hi, rfl⟩ := List.getElem_of_mem hr
  have hlen := hall.length_eq
  exact List.Forall₂.get hall (by omega) hi

/-- C16 (counterexample): the request that `/x contents=''` parses into has a body buffer,
yet one call of the handler leaves the body of the call as it was: the handler tests the
body length, which is 0. -/
theorem present_empty_body_not_set :
    parse_config no_files false ["/x contents=".toList ++ [squote, squote, '\n']]
      = some (.ok ⟨[{ new_request "/x".toList with contents := some [], contents_len := 0 }],
          some 0, 0⟩) ∧
    ∃ c1, set_request
        ⟨[{ new_request "/x".toList with contents := some [], contents_len := 0 }], some 0, 0⟩
        call0
      = some (⟨[{ new_request "/x".toList with contents := some [], contents_len := 0 }],
          none, 0⟩, c1) ∧
      c1.contents = call0.contents ∧ c1.contents ≠ (some [], 0) :=
  ⟨by decide, _, rfl, by decide, by decide⟩

/-- C16 (amended): for a cursor on a request `r` whose header length field is the length of its
header block, one call of the handler sets the method of the call to the method name of `r` if
and only if the method of `r` is not `GET`, always sets the URI of the call to the URI of `r`,
appends the header block of `r` to the request headers of the call if and only if the header
block is not empty, sets the body of the call if and only if the body length of `r` is greater
than 0, and moves the cursor to `r.next`. -/
theorem set_request_fields (heap : List REQ) (a e : Nat) (r : REQ) (c : Call)
    (ha : heap[a]? = some r) (hlen : r.extra_hdrs_len = r.extra_hdrs.length) :
    ∃ c1, set_request ⟨heap, some a, e⟩ c = some (⟨heap, r.next, e⟩, c1) ∧
      (r.method ≠ Method.HM_GET →
        c1.method = (some (call_method_name r.method), (call_method_name r.method).length)) ∧
      (r.method = Method.HM_GET → c1.method = c.method) ∧
      c1.uri = (r.uri, r.uri_len) ∧
      (r.extra_hdrs ≠ [] → c1.extra_hdrs = c.extra_hdrs ++ [(r.extra_hdrs, r.extra_hdrs_len)]) ∧
      (r.extra_hdrs = [] → c1.extra_hdrs = c.extra_hdrs) ∧
      (r.contents_len > 0 → c1.contents = (r.contents, r.contents_len.toNat)) ∧
      (¬ r.contents_len > 0 → c1.contents = c.contents) := by
  have hne : r.extra_hdrs ≠ [] ↔ r.extra_hdrs_len > 0 := by
    rw [hlen]
    exact List.length_pos.symm
  simp only [set_request, ha]
  refine ⟨_, rfl, ?_, ?_, ?_, ?_, ?_, ?_, ?_⟩
  all_goals
    simp only [call_set_uri, call_set_contents, call_append_request_header, call_set_method]
  · intro hm
    simp only [hm, ne_eq, not_false_eq_true, if_true]
    split_ifs <;> rfl
  · intro hm
    simp only [hm, ne_eq, not_true_eq_false, if_false]
    split_ifs <;> rfl
  · split_ifs <;> rfl
  · intro hh
    have := hne.mp hh
    simp only [this, if_true]
    split_ifs <;> rfl
  · intro hh
    have : ¬ r.extra_hdrs_len > 0 := fun h => (hne.mpr h) hh
    simp only [this, if_false]
    split_ifs <;> rfl
  · intro hb
    simp only [hb, if_true]
  · intro hb
    simp only [hb, if_false]
    split_ifs <;> rfl

theorem set_request_fields_witness :
    ∃ c1, set_request ⟨ring3, some 2, 0⟩ call0 = some (⟨ring3, some 0, 0⟩, c1) ∧
      c1.uri = (some "/c".toList, 2) ∧ c1.method = call0.method ∧
      c1.extra_hdrs = call0.extra_hdrs ∧ c1.contents = call0.contents := by
  obtain ⟨c1, h1, _, h3, h4, _, h6, _, h8⟩ :=
    set_request_fields ring3 2 0 { new_request "/c".toList with next := some 0 } call0
      (by decide) (by decide)
  exact ⟨c1, h1, h4, h3 rfl, h6 rfl, h8 (by decide)⟩

/-- C18: one call of the handler leaves the heap of requests as it is, every request with all
its fields (method, URI, header block, body, `next`); what it changes is the call object, the
cursor, and, on an exhausted cursor, the count of stop signals sent to the harness. -/
theorem set_request_frame (st st1 : State) (c c1 : Call)
    (h : set_request st c = some (st1, c1)) :
    st1.heap = st.heap ∧ (∀ a : Nat, st1.heap[a]? = st.heap[a]?) ∧
    (st.cur_req_ptr ≠ none → st1.core_exit_calls = st.core_exit_calls) := by
  unfold set_request at h
  split at h
  · cases h
    rename_i hcur
    exact ⟨rfl, fun _ => rfl, fun hne => absurd hcur hne⟩
  · split at h
    · cases h
    · cases h
      exact ⟨rfl, fun _ => rfl, fun _ => rfl⟩

theorem set_request_frame_witness :
    ∃ st1 c1, set_request ⟨open3, some 1, 0⟩ call0 = some (st1, c1) ∧
      st1.heap = open3 ∧ (∀ a : Nat, st1.heap[a]? = open3[a]?) ∧ st1.core_exit_calls = 0 :=
  ⟨⟨open3, some 2, 0⟩, _, rfl,
    (set_request_frame ⟨open3, some 1, 0⟩ ⟨open3, some 2, 0⟩ call0 _ rfl).1,
    (set_request_frame ⟨open3, some 1, 0⟩ ⟨open3, some 2, 0⟩ call0 _ rfl).2.1,
    (set_request_frame ⟨open3, some 1, 0⟩ ⟨open3, some 2, 0⟩ call0 _ rfl).2.2 (by decide)⟩

/-! ## Claim C17 -/

theorem path_nil_inv {heap : List REQ} {p q : Option Nat} (h : path heap p [] q = true) :
    p = q := by
  cases p <;> simpa [path] using h

theorem path_cons_inv {heap : List REQ} {p q : Option Nat} {b : Nat} {addrs : List Nat}
    (h : path heap p (b :: addrs) q = true) :
    p = some b ∧ ∃ r, heap[b]? = some r ∧ path heap r.next addrs q = true := by
  cases p with
  | none => simp [path] at h
  | some a =>
    simp only [path, Bool.and_eq_true, decide_eq_true_eq] at h
    obtain ⟨rfl, h2⟩ := h
    cases hr : heap[a]? with
    | none => rw [hr] at h2; cases h2
    | some r => rw [hr] at h2; exact ⟨rfl, r, rfl, h2⟩

theorem path_cons {heap : List REQ} {q : Option Nat} {b : Nat} {addrs : List Nat} {r : REQ}
    (hb : heap[b]? = some r) (h : path heap r.next addrs q = true) :
    path heap (some b) (b :: addrs) q = true := by
  simp [path, hb, h]

theorem path_append {heap : List REQ} {q : Option Nat} :
    ∀ (l1 l2 : List Nat) (p : Option Nat), path heap p (l1 ++ l2) q = true →
      ∃ m, path heap p l1 m = true ∧ path heap m l2 q = true := by
  intro l1
  induction l1 with
  | nil => intro l2 p h; exact ⟨p, by simp [path], by simpa using h⟩
  | cons b l1 ih =>
    intro l2 p h
    obtain ⟨rfl, r, hb, hnext⟩ := path_cons_inv h
    obtain ⟨m, h1, h2⟩ := ih l2 r.next hnext
    exact ⟨m, path_cons hb h1, h2⟩

theorem path_join {heap : List REQ} {q : Option Nat} :
    ∀ (l1 l2 : List Nat) (p m : Option Nat), path heap p l1 m = true →
      path heap m l2 q = true → path heap p (l1 ++ l2) q = true := by
  intro l1
  induction l1 with
  | nil =>
    intro l2 p m h1 h2
    rw [path_nil_inv h1]
    simpa using h2
  | cons b l1 ih =>
    intro l2 p m h1 h2
    obtain ⟨rfl, r, hb, hnext⟩ := path_cons_inv h1
    exact path_cons hb (ih l2 r.next m hnext h2)

theorem path_set {heap : List REQ} {q : Option Nat} (a : Nat) (r1 : REQ) :
    ∀ (addrs : List Nat) (p : Option Nat), a ∉ addrs →
      path (heap.set a r1) p addrs q = path heap p addrs q := by
  intro addrs
  induction addrs with
  | nil => intro p _; cases p <;> rfl
  | cons b addrs ih =>
    intro p ha
    have hab : a ≠ b := fun h => ha (h ▸ List.mem_cons_self _ _)
    have ha2 : a ∉ addrs := fun h => ha (List.mem_cons_of_mem _ h)
    cases p with
    | none => rfl
    | some x =>
      by_cases hxb : x = b
      · subst hxb
        simp only [path, decide_True, Bool.true_and, List.getElem?_set_ne hab]
        cases heap[x]? with
        | none => rfl
        | some r => exact ih r.next ha2
      · simp [path, hxb]

theorem released_set {heap : List REQ} {a b : Nat} (r1 : REQ) (hab : a ≠ b) :
    released (heap.set a r1) b = released heap b := by
  simp [released, List.getElem?_set_ne hab]

theorem mem_released {heap : List REQ} {a : Nat} {x : Freed} (h : x ∈ released heap a) :
    x = Freed.uri a ∨ x = Freed.contents a := by
  unfold released at h
  split at h
  · simp at h
  · split_ifs at h <;> simp at h <;> tauto

theorem nodup_released (heap : List REQ) (a : Nat) : (released heap a).Nodup := by
  unfold released
  split
  · simp
  · split_ifs <;> simp

theorem nodup_released_flatMap (heap : List REQ) {addrs : List Nat} (h : addrs.Nodup) :
    (addrs.flatMap (released heap)).Nodup := by
  rw [List.nodup_flatMap]
  refine ⟨fun a _ => nodup_released heap a, ?_⟩
  refine List.Pairwise.imp ?_ h
  intro a b hab x hxa hxb
  rcases mem_released hxa with rfl | rfl <;> rcases mem_released hxb with h2 | h2 <;>
    (cases h2 <;> exact hab rfl)

/-- One call of `free_request_concat` on a node whose `next` is not `NULL`. -/
theorem free_request_concat_step {heap : List REQ} {b x : Nat} {r : REQ}
    (hb : heap[b]? = some r) (hx : r.next = some x) (freed : List Freed) (vis : List Nat)
    (fuel : Nat) :
    free_request_concat (fuel + 1) ⟨heap, freed, vis⟩ (some b) =
      free_request_concat fuel
        ⟨heap.set b { r with uri := none, contents := none, next := none },
          freed ++ released heap b, vis ++ [b]⟩ (some x) := by
  simp only [free_request_concat, hb, hx, released]
  split_ifs <;> simp

/-- One call of `free_request_concat` on a node whose `next` is `NULL`. -/
theorem free_request_concat_last {heap : List REQ} {b : Nat} {r : REQ}
    (hb : heap[b]? = some r) (hx : r.next = none) (freed : List Freed) (vis : List Nat)
    (fuel : Nat) :
    free_request_concat (fuel + 1) ⟨heap, freed, vis⟩ (some b) =
      some ⟨heap.set b { r with uri := none, contents := none },
        freed ++ released heap b ++ [Freed.node b], vis ++ [b]⟩ := by
  simp only [free_request_concat, hb, hx, released]
  split_ifs <;> simp

/-- The walk of `free_request_concat` along a path of distinct nodes that does not end at
`NULL`: it enters each node once, releases its `uri` and `contents`, sets its `next` to
`NULL`, and goes on at the end of the path. -/
theorem free_request_concat_walk (q : Option Nat) (hq : q ≠ none) :
    ∀ (addrs : List Nat) (heap : List REQ) (p : Option Nat) (freed : List Freed)
      (vis : List Nat) (fuel : Nat),
      path heap p addrs q = true → addrs.Nodup →
      ∃ heap1,
        free_request_concat (fuel + addrs.length) ⟨heap, freed, vis⟩ p =
          free_request_concat fuel
            ⟨heap1, freed ++ addrs.flatMap (released heap), vis ++ addrs⟩ q ∧
        (∀ a ∈ addrs, ∃ r, heap1[a]? = some r ∧ r.next = none ∧ r.uri = none ∧
          r.contents = none) ∧
        (∀ a, a ∉ addrs → heap1[a]? = heap[a]?) := by
  intro addrs
  induction addrs with
  | nil =>
    intro heap p freed vis fuel hp _
    rw [path_nil_inv hp]
    exact ⟨heap, by simp, by simp, fun _ _ => rfl⟩
  | cons b addrs ih =>
    intro heap p freed vis fuel hp hnd
    obtain ⟨rfl, r, hb, hnext⟩ := path_cons_inv hp
    have hbn : b ∉ addrs := (List.nodup_cons.mp hnd).1
    have hnd2 : addrs.Nodup := (List.nodup_cons.mp hnd).2
    have hx : ∃ x, r.next = some x := by
      cases addrs with
      | nil =>
        have := path_nil_inv hnext
        cases hq1 : q with
        | none => exact absurd hq1 hq
        | some x => exact ⟨x, by rw [this, hq1]⟩
      | cons c cs => exact ⟨c, (path_cons_inv hnext).1⟩
    obtain ⟨x, hx⟩ := hx
    have hp2 : path (heap.set b { r with uri := none, contents := none, next := none })
        r.next addrs q = true := by
      rw [path_set b _ addrs r.next hbn]; exact hnext
    obtain ⟨heap1, h1, h2, h3⟩ := ih _ r.next (freed ++ released heap b) (vis ++ [b]) fuel
      hp2 hnd2
    have hcongr : addrs.flatMap
        (released (heap.set b { r with uri := none, contents := none, next := none }))
        = addrs.flatMap (released heap) := by
      apply List.flatMap_congr
      intro a ha
      exact released_set _ (fun h => hbn (h ▸ ha))
    have hblt : b < heap.length := by
      by_contra hge
      rw [List.getElem?_eq_none (by omega)] at hb
      cases hb
    refine ⟨heap1, ?_, ?_, ?_⟩
    · have hf : fuel + (b :: addrs).length = (fuel + addrs.length) + 1 := by simp; omega
      rw [hf, free_request_concat_step hb hx, ← hx, h1, hcongr]
      simp [List.append_assoc]
    · intro a ha
      rcases List.mem_cons.mp ha with rfl | ha
      · rw [h3 a hbn, List.getElem?_set_self hblt]
        exact ⟨_, rfl, rfl, rfl, rfl⟩
      · exact h2 a ha
    · intro a ha
      have hab : b ≠ a := fun h => ha (h ▸ List.mem_cons_self _ _)
      rw [h3 a (fun h => ha (List.mem_cons_of_mem _ h)), List.getElem?_set_ne hab]

/-- C13 (counterexample): on the ring of one node the shutdown enters the node twice. -/
theorem ring_cursor_node_entered_twice :
    path ring1 (some 0) [0] (some 0) = true ∧
    ∃ sd, stop_wrichlog 5 ⟨ring1, some 0, 0⟩ = some sd ∧ sd.visited = [0, 0] ∧
      sd.visited.length ≠ 1 ∧ sd.visited.count 0 = 2 ∧
      sd.freed = [Freed.uri 0, Freed.node 0] := by
  decide

/-- C13 (amended): on a ring of `N >= 1` distinct nodes, with the cursor on any node `c` of
it, the shutdown terminates after `N + 1` calls of `free_request_concat` on a node: it enters
the `N` nodes once each, in ring order from the cursor, and then the cursor node a second
time, where `uri`, `contents` and `next` are `NULL` already and the node is freed. The `uri`
and the `contents` of every node are released once, in that order of the nodes, and no call
of `free` is repeated. -/
theorem stop_wrichlog_ring (heap : List REQ) (xs ys : List Nat) (h0 c e : Nat)
    (hring : path heap (some h0) (xs ++ c :: ys) (some h0) = true)
    (hnodup : (xs ++ c :: ys).Nodup) (fuel : Nat)
    (hfuel : (xs ++ c :: ys).length + 1 ≤ fuel) :
    ∃ sd, stop_wrichlog fuel ⟨heap, some c, e⟩ = some sd ∧
      sd.visited = (c :: ys ++ xs) ++ [c] ∧
      sd.visited.length = (xs ++ c :: ys).length + 1 ∧
      sd.freed = (c :: ys ++ xs).flatMap (released heap) ++ [Freed.node c] ∧
      sd.freed.Nodup ∧
      (∀ a ∈ xs ++ c :: ys, ∃ r, sd.heap[a]? = some r ∧ r.uri = none ∧ r.contents = none) := by
  -- the ring seen from the cursor
  obtain ⟨m, hxs, hcys⟩ := path_append xs (c :: ys) (some h0) hring
  obtain ⟨rfl, _⟩ := path_cons_inv hcys
  have hrot : path heap (some c) ((c :: ys) ++ xs) (some c) = true :=
    path_join (c :: ys) xs (some c) (some h0) hcys hxs
  have hnd : ((c :: ys) ++ xs).Nodup := by
    have := List.nodup_append_comm.mp hnodup
    simpa using this
  have hlen : ((c :: ys) ++ xs).length = (xs ++ c :: ys).length := by
    simp [List.length_append]; omega
  -- the walk round the ring, then the second call on the cursor node
  obtain ⟨k, rfl⟩ : ∃ k, fuel = (k + 1) + ((c :: ys) ++ xs).length := ⟨fuel - 1 - ((c :: ys) ++ xs).length, by omega⟩
  obtain ⟨heap1, h1, h2, h3⟩ := free_request_concat_walk (some c) (by simp) ((c :: ys) ++ xs)
    heap (some c) [] [] (k + 1) hrot hnd
  obtain ⟨r, hr, hrn, hru, hrc⟩ := h2 c (by simp)
  have hrel : released heap1 c = [] := by simp [released, hr, hru, hrc]
  have hlast := free_request_concat_last hr hrn
    ([] ++ ((c :: ys) ++ xs).flatMap (released heap)) ([] ++ ((c :: ys) ++ xs)) k
  refine ⟨_, by rw [stop_wrichlog, h1, hlast], by simp, ?_, by simp [hrel], ?_, ?_⟩
  · simp only [List.nil_append, List.length_append, List.length_cons, List.length_nil]
    omega
  · simp only [List.nil_append, hrel, List.append_nil]
    rw [List.nodup_append]
    refine ⟨nodup_released_flatMap heap hnd, by simp, ?_⟩
    intro x hx hx2
    obtain ⟨a, _, ha⟩ := List.mem_flatMap.mp hx
    simp only [List.mem_singleton] at hx2
    subst hx2
    rcases mem_released ha with h | h <;> cases h
  · intro a ha
    have ha2 : a ∈ (c :: ys) ++ xs := by
      rcases List.mem_append.mp ha with h | h
      · exact List.mem_append_right _ h
      · exact List.mem_append_left _ h
    obtain ⟨r2, hr2, _, hu2, hc2⟩ := h2 a ha2
    by_cases hac : c = a
    · subst hac
      have hclt : c < heap1.length := by
        by_contra hge
        rw [List.getElem?_eq_none (by omega)] at hr
        cases hr
      exact ⟨_, List.getElem?_set_self hclt, rfl, rfl⟩
    · exact ⟨r2, by rw [List.getElem?_set_ne hac]; exact hr2, hu2, hc2⟩

theorem stop_wrichlog_ring_witness :
    ∃ sd, stop_wrichlog 4 ⟨ring3, some 1, 0⟩ = some sd ∧
      sd.visited = (1 :: [2] ++ [0]) ++ [1] ∧
      sd.visited.length = ([0] ++ 1 :: [2]).length + 1 ∧
      sd.freed = (1 :: [2] ++ [0]).flatMap (released ring3) ++ [Freed.node 1] ∧
      sd.freed.Nodup ∧
      (∀ a ∈ [0] ++ 1 :: [2], ∃ r, sd.heap[a]? = some r ∧ r.uri = none ∧ r.contents = none) :=
  stop_wrichlog_ring ring3 [0] [2] 0 1 0 (by decide) (by decide) 4 (by decide)

/-- C14 (failing input): on the open list of three requests, after one dispatch the cursor is
on node 1 and the shutdown releases the `uri` of the nodes 1 and 2 only: the `uri` of node 0
is never released; after four dispatches the cursor is exhausted and the shutdown releases
nothing. -/
theorem stop_wrichlog_skips_served_requests :
    dispatch ⟨open3, some 0, 0⟩ [call0] = some ⟨open3, some 1, 0⟩ ∧
    (∃ sd, stop_wrichlog 5 ⟨open3, some 1, 0⟩ = some sd ∧
      sd.freed = [Freed.uri 1, Freed.uri 2, Freed.node 2] ∧ Freed.uri 0 ∉ sd.freed ∧
      sd.heap[0]? = open3[0]?) ∧
    dispatch ⟨open3, some 0, 0⟩ [call0, call0, call0, call0] = some ⟨open3, none, 1⟩ ∧
    stop_wrichlog 5 ⟨open3, none, 1⟩ = some ⟨open3, [], []⟩ := by
  decide

end Wrichlog
